import Mathlib

/-!
Verification of the tag indexing and query-evaluation engine of the `mon`
personal content organizer (Go).

The Go code keeps, per entity kind, a persisted tag-count map
(`map[string]int`, JSON-serialized under a fixed key) and an alias map
(`map[string]string`).  We model both Go maps as association lists with the
zero-value lookup semantics of Go (`m[k]` of a missing key is `0` / `""`),
and model the handler logic as pure functions over these lists, translated
from `api/handlers` (`updateTagCounts`, `rebuildTagCounts`, `normalizeTags`,
`evaluateTagExpression`, `GetBookmarks`, `GetBookmarkTags`, ...).

Strings are handled as `List Char` where character-level work is needed
(the expression evaluator); Go's byte-indexed slicing coincides with
character indexing on the ASCII inputs the engine deals with.
-/

namespace Mon

/-! ## Go `map[string]int` as an association list -/

/-- Lookup in a Go string-keyed map (the first matching entry). -/
def lookupC (m : List (String × Int)) (k : String) : Option Int :=
  (m.find? (fun p => p.1 = k)).map (fun p => p.2)

/-- `m[k]` with Go's zero-value semantics: missing keys read as `0`. -/
def countOf (m : List (String × Int)) (k : String) : Int :=
  (lookupC m k).getD 0

/-- `m[k] = v`: replace the first entry with key `k`, or append a fresh one. -/
def setC (m : List (String × Int)) (k : String) (v : Int) : List (String × Int) :=
  match m with
  | [] => [(k, v)]
  | p :: ps => if p.1 = k then (k, v) :: ps else p :: setC ps k v

/-- `delete(m, k)`: remove every entry with key `k`. -/
def eraseC (m : List (String × Int)) (k : String) : List (String × Int) :=
  m.filter (fun p => p.1 ≠ k)

/-- The keys of the map are pairwise distinct (true of every real Go map). -/
def keysNodup (m : List (String × Int)) : Prop :=
  (m.map Prod.fst).Nodup

theorem lookupC_nil (k : String) : lookupC [] k = none := rfl

theorem lookupC_cons (p : String × Int) (ps : List (String × Int)) (k : String) :
    lookupC (p :: ps) k = if p.1 = k then some p.2 else lookupC ps k := by
  unfold lookupC
  by_cases h : p.1 = k
  · simp [List.find?_cons, h]
  · simp [List.find?_cons, h]

theorem setC_cons (p : String × Int) (ps : List (String × Int)) (k : String) (v : Int) :
    setC (p :: ps) k v = if p.1 = k then (k, v) :: ps else p :: setC ps k v := rfl

theorem eraseC_cons (p : String × Int) (ps : List (String × Int)) (k : String) :
    eraseC (p :: ps) k = if p.1 = k then eraseC ps k else p :: eraseC ps k := by
  unfold eraseC
  by_cases h : p.1 = k <;> simp [List.filter_cons, h]

theorem lookupC_setC_self (m : List (String × Int)) (k : String) (v : Int) :
    lookupC (setC m k v) k = some v := by
  induction m with
  | nil => simp [setC, lookupC]
  | cons p ps ih =>
    rw [setC_cons]
    by_cases h : p.1 = k
    · simp [h, lookupC_cons]
    · rw [if_neg h, lookupC_cons, if_neg h]
      exact ih

theorem lookupC_setC_ne (m : List (String × Int)) (k k' : String) (v : Int)
    (h : k' ≠ k) : lookupC (setC m k v) k' = lookupC m k' := by
  induction m with
  | nil => simp [setC, lookupC_cons, lookupC_nil, Ne.symm h]
  | cons p ps ih =>
    rw [setC_cons]
    by_cases hp : p.1 = k
    · rw [if_pos hp, lookupC_cons, lookupC_cons, hp, if_neg (Ne.symm h), if_neg (Ne.symm h)]
    · rw [if_neg hp, lookupC_cons, lookupC_cons]
      by_cases hp' : p.1 = k'
      · rw [if_pos hp', if_pos hp']
      · rw [if_neg hp', if_neg hp']
        exact ih

theorem lookupC_eraseC_self (m : List (String × Int)) (k : String) :
    lookupC (eraseC m k) k = none := by
  induction m with
  | nil => simp [eraseC, lookupC]
  | cons p ps ih =>
    rw [eraseC_cons]
    by_cases h : p.1 = k
    · rw [if_pos h]; exact ih
    · rw [if_neg h, lookupC_cons, if_neg h]; exact ih

theorem lookupC_eraseC_ne (m : List (String × Int)) (k k' : String) (h : k' ≠ k) :
    lookupC (eraseC m k) k' = lookupC m k' := by
  induction m with
  | nil => simp [eraseC, lookupC]
  | cons p ps ih =>
    rw [eraseC_cons]
    by_cases hp : p.1 = k
    · rw [if_pos hp, lookupC_cons]
      have hp' : p.1 ≠ k' := by rw [hp]; exact Ne.symm h
      rw [if_neg hp']
      exact ih
    · rw [if_neg hp, lookupC_cons, lookupC_cons]
      by_cases hp' : p.1 = k'
      · rw [if_pos hp', if_pos hp']
      · rw [if_neg hp', if_neg hp']
        exact ih

theorem mem_setC (m : List (String × Int)) (k : String) (v : Int)
    (p : String × Int) (hp : p ∈ setC m k v) : p = (k, v) ∨ p ∈ m := by
  induction m with
  | nil => simpa [setC] using hp
  | cons q qs ih =>
    rw [setC_cons] at hp
    by_cases hq : q.1 = k
    · rw [if_pos hq] at hp
      rcases List.mem_cons.mp hp with h | h
      · exact Or.inl h
      · exact Or.inr (List.mem_cons_of_mem _ h)
    · rw [if_neg hq] at hp
      rcases List.mem_cons.mp hp with h | h
      · exact Or.inr (by simp [h])
      · rcases ih h with h' | h'
        · exact Or.inl h'
        · exact Or.inr (List.mem_cons_of_mem _ h')

theorem mem_eraseC (m : List (String × Int)) (k : String)
    (p : String × Int) (hp : p ∈ eraseC m k) : p ∈ m :=
  List.mem_of_mem_filter hp

theorem mem_keys_setC (m : List (String × Int)) (k : String) (v : Int)
    (x : String) (hx : x ∈ (setC m k v).map Prod.fst) :
    x = k ∨ x ∈ m.map Prod.fst := by
  rcases List.mem_map.mp hx with ⟨p, hp, hpx⟩
  rcases mem_setC m k v p hp with h | h
  · left; rw [← hpx, h]
  · right; exact hpx ▸ List.mem_map_of_mem Prod.fst h

theorem keysNodup_setC (m : List (String × Int)) (k : String) (v : Int)
    (h : keysNodup m) : keysNodup (setC m k v) := by
  induction m with
  | nil => simp [setC, keysNodup]
  | cons p ps ih =>
    unfold keysNodup at h ⊢
    rw [List.map_cons, List.nodup_cons] at h
    rw [setC_cons]
    by_cases hp : p.1 = k
    · rw [if_pos hp, List.map_cons, List.nodup_cons]
      exact ⟨hp ▸ h.1, h.2⟩
    · rw [if_neg hp, List.map_cons, List.nodup_cons]
      refine ⟨fun hmem => ?_, ih h.2⟩
      rcases mem_keys_setC ps k v p.1 hmem with h' | h'
      · exact hp h'
      · exact h.1 h'

theorem keysNodup_eraseC (m : List (String × Int)) (k : String)
    (h : keysNodup m) : keysNodup (eraseC m k) :=
  ((List.filter_sublist m).map Prod.fst).nodup h

/-! ## AliasResolver (`tag_aliases.go`)

The alias map `map[string]string` is modelled as an association list;
`aliases[t]` with Go zero-value semantics reads `""` for a missing key. -/

/-- `aliases[t]` in Go: value of the first entry with key `t`, else `""`. -/
def aliasGet (aliases : List (String × String)) (t : String) : String :=
  ((aliases.find? (fun p => p.1 = t)).map (fun p => p.2)).getD ""

/-- The canonical form of one tag, as computed inline by the Go code:
`canon := aliases[t]; if canon == "" { canon = t }`. -/
def canonOf (aliases : List (String × String)) (t : String) : String :=
  if aliasGet aliases t = "" then t else aliasGet aliases t

/-- Worker loop of `normalizeTags`: walks the input keeping a `seen` set and
emits each not-yet-seen canonical form (empty input tags are skipped). -/
def normalizeTagsGo : List String → List String → List (String × String) → List String
  | _, [], _ => []
  | seen, t :: ts, aliases =>
    if t = "" then normalizeTagsGo seen ts aliases
    else
      let canon := canonOf aliases t
      if seen.contains canon then normalizeTagsGo seen ts aliases
      else canon :: normalizeTagsGo (canon :: seen) ts aliases

/-- `normalizeTags` (`tag_aliases.go` lines 70-90): map any aliases to their
canonical tag and de-duplicate, preserving first-seen order. -/
def normalizeTags (tags : List String) (aliases : List (String × String)) : List String :=
  if tags = [] then tags else normalizeTagsGo [] tags aliases

theorem canonOf_ne_empty (aliases : List (String × String)) (t : String) (ht : t ≠ "") :
    canonOf aliases t ≠ "" := by
  unfold canonOf
  by_cases h : aliasGet aliases t = ""
  · rw [if_pos h]; exact ht
  · rw [if_neg h]; exact h

theorem normalizeTagsGo_not_mem_seen (seen : List String) (ts : List String)
    (aliases : List (String × String)) (c : String)
    (hc : c ∈ normalizeTagsGo seen ts aliases) : ¬ seen.contains c := by
  induction ts generalizing seen with
  | nil => simp [normalizeTagsGo] at hc
  | cons t ts ih =>
    unfold normalizeTagsGo at hc
    by_cases ht : t = ""
    · rw [if_pos ht] at hc; exact ih seen hc
    · rw [if_neg ht] at hc
      by_cases hs : seen.contains (canonOf aliases t)
      · rw [if_pos hs] at hc; exact ih seen hc
      · rw [if_neg hs] at hc
        rcases List.mem_cons.mp hc with h | h
        · rw [h]; exact hs
        · intro hcon
          have hc2 : c ∈ seen := by simpa using hcon
          exact ih _ h (by simp [hc2])

theorem normalizeTagsGo_nodup (seen : List String) (ts : List String)
    (aliases : List (String × String)) :
    (normalizeTagsGo seen ts aliases).Nodup := by
  induction ts generalizing seen with
  | nil => simp [normalizeTagsGo]
  | cons t ts ih =>
    unfold normalizeTagsGo
    by_cases ht : t = ""
    · rw [if_pos ht]; exact ih seen
    · rw [if_neg ht]
      by_cases hs : seen.contains (canonOf aliases t)
      · rw [if_pos hs]; exact ih seen
      · rw [if_neg hs, List.nodup_cons]
        refine ⟨fun hmem => ?_, ih _⟩
        exact normalizeTagsGo_not_mem_seen _ _ _ _ hmem (by simp)

theorem normalizeTagsGo_shape (seen : List String) (ts : List String)
    (aliases : List (String × String)) (c : String)
    (hc : c ∈ normalizeTagsGo seen ts aliases) :
    ∃ t ∈ ts, t ≠ "" ∧ c = canonOf aliases t := by
  induction ts generalizing seen with
  | nil => simp [normalizeTagsGo] at hc
  | cons t ts ih =>
    unfold normalizeTagsGo at hc
    by_cases ht : t = ""
    · rw [if_pos ht] at hc
      rcases ih seen hc with ⟨u, hu, h⟩
      exact ⟨u, List.mem_cons_of_mem _ hu, h⟩
    · rw [if_neg ht] at hc
      by_cases hs : seen.contains (canonOf aliases t)
      · rw [if_pos hs] at hc
        rcases ih seen hc with ⟨u, hu, h⟩
        exact ⟨u, List.mem_cons_of_mem _ hu, h⟩
      · rw [if_neg hs] at hc
        rcases List.mem_cons.mp hc with h | h
        · exact ⟨t, List.mem_cons_self _ _, ht, h⟩
        · rcases ih _ h with ⟨u, hu, h'⟩
          exact ⟨u, List.mem_cons_of_mem _ hu, h'⟩

theorem normalizeTags_nodup (tags : List String) (aliases : List (String × String)) :
    (normalizeTags tags aliases).Nodup := by
  unfold normalizeTags
  by_cases h : tags = []
  · rw [if_pos h, h]; exact List.nodup_nil
  · rw [if_neg h]; exact normalizeTagsGo_nodup [] tags aliases

theorem normalizeTags_ne_empty (tags : List String) (aliases : List (String × String))
    (c : String) (hc : c ∈ normalizeTags tags aliases) : c ≠ "" := by
  unfold normalizeTags at hc
  by_cases h : tags = []
  · rw [if_pos h, h] at hc; simp at hc
  · rw [if_neg h] at hc
    rcases normalizeTagsGo_shape [] tags aliases c hc with ⟨t, _, ht, hcan⟩
    rw [hcan]
    exact canonOf_ne_empty aliases t ht

theorem normalizeTags_mem_canon (tags : List String) (aliases : List (String × String))
    (c : String) (hc : c ∈ normalizeTags tags aliases) :
    ∃ t ∈ tags, t ≠ "" ∧ c = canonOf aliases t := by
  unfold normalizeTags at hc
  by_cases h : tags = []
  · rw [if_pos h, h] at hc; simp at hc
  · rw [if_neg h] at hc
    exact normalizeTagsGo_shape [] tags aliases c hc

/-! ## TagIndex deltas (`updateTagCounts`, `part_016` lines 246-293) -/

/-- One decrement step of `updateTagCounts`: skip empty tags and missing
keys, delete the key when the stored count is ≤ 1, else store count - 1. -/
def decTag (m : List (String × Int)) (t : String) : List (String × Int) :=
  if t = "" then m
  else
    match lookupC m t with
    | none => m
    | some c => if c ≤ 1 then eraseC m t else setC m t (c - 1)

/-- One increment step of `updateTagCounts`: skip empty tags, otherwise
`tagCounts[tag]++` with Go's zero default for missing keys. -/
def incTag (m : List (String × Int)) (t : String) : List (String × Int) :=
  if t = "" then m else setC m t (countOf m t + 1)

/-- `updateTagCounts(oldTags, newTags)`: decrement all old tags in order,
then increment all new tags in order, over the loaded count map. -/
def updateTagCounts (m : List (String × Int)) (oldTags newTags : List String) :
    List (String × Int) :=
  newTags.foldl incTag (oldTags.foldl decTag m)

theorem decTag_empty (m : List (String × Int)) : decTag m "" = m := rfl

theorem decTag_of_none (m : List (String × Int)) (u : String) (hu : u ≠ "")
    (h : lookupC m u = none) : decTag m u = m := by
  unfold decTag
  rw [if_neg hu, h]

theorem decTag_of_some (m : List (String × Int)) (u : String) (c : Int) (hu : u ≠ "")
    (h : lookupC m u = some c) :
    decTag m u = if c ≤ 1 then eraseC m u else setC m u (c - 1) := by
  unfold decTag
  rw [if_neg hu, h]

theorem lookupC_of_countOf_pos (m : List (String × Int)) (t : String)
    (h : 1 ≤ countOf m t) : lookupC m t = some (countOf m t) := by
  unfold countOf at *
  cases hl : lookupC m t with
  | none => rw [hl] at h; simp at h
  | some c => simp [hl]

theorem lookupC_mem (m : List (String × Int)) (t : String) (c : Int)
    (h : lookupC m t = some c) : (t, c) ∈ m := by
  unfold lookupC at h
  cases hf : m.find? (fun p => p.1 = t) with
  | none => rw [hf] at h; simp at h
  | some p =>
    rw [hf] at h
    simp at h
    have hp := List.find?_some hf
    have hmem := List.mem_of_find?_eq_some hf
    simp at hp
    rw [← hp, ← h]
    exact hmem

theorem incTag_lookupC_other (m : List (String × Int)) (u t : String)
    (h : u = "" ∨ u ≠ t) : lookupC (incTag m u) t = lookupC m t := by
  unfold incTag
  rcases h with h | h
  · rw [if_pos h]
  · by_cases hu : u = ""
    · rw [if_pos hu]
    · rw [if_neg hu]
      exact lookupC_setC_ne m u t _ (Ne.symm h)

theorem decTag_lookupC_other (m : List (String × Int)) (u t : String)
    (h : u ≠ t) : lookupC (decTag m u) t = lookupC m t := by
  by_cases hu : u = ""
  · rw [hu, decTag_empty]
  · cases hl : lookupC m u with
    | none => rw [decTag_of_none m u hu hl]
    | some c =>
      rw [decTag_of_some m u c hu hl]
      by_cases hc : c ≤ 1
      · rw [if_pos hc]; exact lookupC_eraseC_ne m u t (Ne.symm h)
      · rw [if_neg hc]; exact lookupC_setC_ne m u t _ (Ne.symm h)

theorem foldl_incTag_lookupC_other (l : List String) (m : List (String × Int))
    (t : String) (h : ∀ u ∈ l, u = "" ∨ u ≠ t) :
    lookupC (l.foldl incTag m) t = lookupC m t := by
  induction l generalizing m with
  | nil => rfl
  | cons u us ih =>
    rw [List.foldl_cons, ih _ (fun v hv => h v (List.mem_cons_of_mem _ hv))]
    exact incTag_lookupC_other m u t (h u (List.mem_cons_self _ _))

theorem foldl_decTag_lookupC_other (l : List String) (m : List (String × Int))
    (t : String) (h : ∀ u ∈ l, u ≠ t) :
    lookupC (l.foldl decTag m) t = lookupC m t := by
  induction l generalizing m with
  | nil => rfl
  | cons u us ih =>
    rw [List.foldl_cons, ih _ (fun v hv => h v (List.mem_cons_of_mem _ hv))]
    exact decTag_lookupC_other m u t (h u (List.mem_cons_self _ _))

theorem foldl_incTag_lookupC_some (l : List String) (m : List (String × Int))
    (t : String) (c : Int) (ht : t ≠ "") (hc : lookupC m t = some c) :
    lookupC (l.foldl incTag m) t = some (c + (l.count t : Int)) := by
  induction l generalizing m c with
  | nil => simpa using hc
  | cons u us ih =>
    rw [List.foldl_cons]
    by_cases hu : u = t
    · subst hu
      have h1 : lookupC (incTag m u) u = some (c + 1) := by
        unfold incTag
        rw [if_neg ht]
        rw [lookupC_setC_self]
        unfold countOf
        rw [hc]
        rfl
      rw [ih _ _ h1, List.count_cons_self]
      congr 1
      push_cast
      ring
    · have h1 : lookupC (incTag m u) t = some c := by
        rw [incTag_lookupC_other m u t (Or.inr hu)]; exact hc
      rw [ih _ _ h1, List.count_cons_of_ne (fun e => hu e.symm)]

theorem foldl_incTag_lookupC_none (l : List String) (m : List (String × Int))
    (t : String) (ht : t ≠ "") (hc : lookupC m t = none) (hm : t ∈ l) :
    lookupC (l.foldl incTag m) t = some ((l.count t : Int)) := by
  induction l generalizing m with
  | nil => simp at hm
  | cons u us ih =>
    rw [List.foldl_cons]
    by_cases hu : u = t
    · subst hu
      have h1 : lookupC (incTag m u) u = some 1 := by
        unfold incTag
        rw [if_neg ht, lookupC_setC_self]
        unfold countOf
        rw [hc]
        rfl
      rw [foldl_incTag_lookupC_some us _ u 1 ht h1, List.count_cons_self]
      congr 1
      push_cast
      ring
    · have h1 : lookupC (incTag m u) t = none := by
        rw [incTag_lookupC_other m u t (Or.inr hu)]; exact hc
      have hm' : t ∈ us := by
        rcases List.mem_cons.mp hm with h | h
        · exact absurd h.symm hu
        · exact h
      rw [ih _ h1 hm', List.count_cons_of_ne (fun e => hu e.symm)]

theorem foldl_decTag_lookupC (l : List String) (m : List (String × Int))
    (t : String) (c : Int) (ht : t ≠ "") (hc : lookupC m t = some c)
    (h1 : 1 ≤ c) (hge : (l.count t : Int) ≤ c) :
    lookupC (l.foldl decTag m) t =
      if (l.count t : Int) = c then none else some (c - (l.count t : Int)) := by
  induction l generalizing m c with
  | nil =>
    simp only [List.count_nil, List.foldl_nil, Nat.cast_zero]
    rw [if_neg (by omega)]
    simpa using hc
  | cons u us ih =>
    rw [List.foldl_cons]
    by_cases hu : u = t
    · subst hu
      have hcount : ((u :: us).count u : Int) = (us.count u : Int) + 1 := by
        rw [List.count_cons_self]; push_cast; ring
      have hdec : decTag m u =
          if c ≤ 1 then eraseC m u else setC m u (c - 1) :=
        decTag_of_some m u c ht hc
      by_cases hc1 : c ≤ 1
      · have hceq : c = 1 := le_antisymm hc1 h1
        have hzero : (us.count u : Int) = 0 := by
          rw [hcount] at hge; omega
        have hnotmem : ∀ v ∈ us, v ≠ u := by
          intro v hv hvu
          have : 0 < us.count u := List.count_pos_iff.mpr (hvu ▸ hv)
          omega
        rw [hdec, if_pos hc1]
        rw [foldl_decTag_lookupC_other us _ u hnotmem, lookupC_eraseC_self]
        rw [if_pos (by rw [hcount]; omega)]
      · have hlook : lookupC (decTag m u) u = some (c - 1) := by
          rw [hdec, if_neg hc1, lookupC_setC_self]
        have hge' : (us.count u : Int) ≤ c - 1 := by rw [hcount] at hge; omega
        rw [ih _ _ hlook (by omega) hge']
        rw [hcount]
        by_cases heq : (us.count u : Int) = c - 1
        · rw [if_pos heq, if_pos (by omega)]
        · rw [if_neg heq, if_neg (by omega)]
          congr 1
          omega
    · have h1' : lookupC (decTag m u) t = some c := by
        rw [decTag_lookupC_other m u t hu]; exact hc
      rw [List.count_cons_of_ne (fun e => hu e.symm)]
      exact ih _ _ h1' h1 (by rwa [List.count_cons_of_ne (fun e => hu e.symm)] at hge)

theorem pos_incTag (m : List (String × Int)) (u : String)
    (h : ∀ p ∈ m, 0 < p.2) : ∀ p ∈ incTag m u, 0 < p.2 := by
  intro p hp
  unfold incTag at hp
  by_cases hu : u = ""
  · rw [if_pos hu] at hp; exact h p hp
  · rw [if_neg hu] at hp
    rcases mem_setC _ _ _ _ hp with he | he
    · rw [he]
      show 0 < countOf m u + 1
      unfold countOf
      cases hl : lookupC m u with
      | none => simp
      | some c =>
        have := h _ (lookupC_mem m u c hl)
        simp at this ⊢
        omega
    · exact h p he

theorem pos_decTag (m : List (String × Int)) (u : String)
    (h : ∀ p ∈ m, 0 < p.2) : ∀ p ∈ decTag m u, 0 < p.2 := by
  intro p hp
  by_cases hu : u = ""
  · rw [hu, decTag_empty] at hp; exact h p hp
  · cases hl : lookupC m u with
    | none => rw [decTag_of_none m u hu hl] at hp; exact h p hp
    | some c =>
      rw [decTag_of_some m u c hu hl] at hp
      by_cases hc : c ≤ 1
      · rw [if_pos hc] at hp
        exact h p (mem_eraseC _ _ _ hp)
      · rw [if_neg hc] at hp
        rcases mem_setC _ _ _ _ hp with he | he
        · rw [he]; simp; omega
        · exact h p he

theorem pos_foldl_incTag (l : List String) (m : List (String × Int))
    (h : ∀ p ∈ m, 0 < p.2) : ∀ p ∈ l.foldl incTag m, 0 < p.2 := by
  induction l generalizing m with
  | nil => exact h
  | cons u us ih => exact ih _ (pos_incTag m u h)

theorem pos_foldl_decTag (l : List String) (m : List (String × Int))
    (h : ∀ p ∈ m, 0 < p.2) : ∀ p ∈ l.foldl decTag m, 0 < p.2 := by
  induction l generalizing m with
  | nil => exact h
  | cons u us ih => exact ih _ (pos_decTag m u h)

theorem keysNodup_incTag (m : List (String × Int)) (u : String)
    (h : keysNodup m) : keysNodup (incTag m u) := by
  unfold incTag
  by_cases hu : u = ""
  · rw [if_pos hu]; exact h
  · rw [if_neg hu]; exact keysNodup_setC m u _ h

theorem keysNodup_decTag (m : List (String × Int)) (u : String)
    (h : keysNodup m) : keysNodup (decTag m u) := by
  by_cases hu : u = ""
  · rw [hu, decTag_empty]; exact h
  · cases hl : lookupC m u with
    | none => rw [decTag_of_none m u hu hl]; exact h
    | some c =>
      rw [decTag_of_some m u c hu hl]
      by_cases hc : c ≤ 1
      · rw [if_pos hc]; exact keysNodup_eraseC m u h
      · rw [if_neg hc]; exact keysNodup_setC m u _ h

theorem keysNodup_foldl_incTag (l : List String) (m : List (String × Int))
    (h : keysNodup m) : keysNodup (l.foldl incTag m) := by
  induction l generalizing m with
  | nil => exact h
  | cons u us ih => exact ih _ (keysNodup_incTag m u h)

theorem keysNodup_foldl_decTag (l : List String) (m : List (String × Int))
    (h : keysNodup m) : keysNodup (l.foldl decTag m) := by
  induction l generalizing m with
  | nil => exact h
  | cons u us ih => exact ih _ (keysNodup_decTag m u h)

theorem countOf_foldl_incTag (l : List String) (m : List (String × Int))
    (t : String) (hnd : l.Nodup) (hne : "" ∉ l) :
    countOf (l.foldl incTag m) t = countOf m t + (if t ∈ l then 1 else 0) := by
  by_cases hm : t ∈ l
  · have ht : t ≠ "" := fun h => hne (h ▸ hm)
    have hcount : l.count t = 1 := by
      have h1 : l.count t ≤ 1 := List.nodup_iff_count_le_one.mp hnd t
      have h2 : 0 < l.count t := List.count_pos_iff.mpr hm
      omega
    cases hl : lookupC m t with
    | none =>
      unfold countOf
      rw [foldl_incTag_lookupC_none l m t ht hl hm, hl, hcount]
      simp [hm]
    | some c =>
      unfold countOf
      rw [foldl_incTag_lookupC_some l m t c ht hl, hl, hcount]
      simp [hm]
  · unfold countOf
    rw [foldl_incTag_lookupC_other l m t (fun u hu => Or.inr (fun e => hm (e ▸ hu)))]
    rw [if_neg hm]
    ring

theorem countOf_foldl_decTag (l : List String) (m : List (String × Int))
    (t : String) (hnd : l.Nodup) (hne : "" ∉ l)
    (hge : ∀ u ∈ l, 1 ≤ countOf m u) :
    countOf (l.foldl decTag m) t = countOf m t - (if t ∈ l then 1 else 0) := by
  by_cases hm : t ∈ l
  · have ht : t ≠ "" := fun h => hne (h ▸ hm)
    have h1 : 1 ≤ countOf m t := hge t hm
    have hc := lookupC_of_countOf_pos m t h1
    have hcount : l.count t = 1 := by
      have ha : l.count t ≤ 1 := List.nodup_iff_count_le_one.mp hnd t
      have hb : 0 < l.count t := List.count_pos_iff.mpr hm
      omega
    simp only [countOf] at h1 hc ⊢
    rw [foldl_decTag_lookupC l m t ((lookupC m t).getD 0) ht hc h1
      (by rw [hcount]; exact_mod_cast h1)]
    rw [hcount]
    by_cases he : ((1 : Nat) : Int) = (lookupC m t).getD 0
    · rw [if_pos he, if_pos hm]
      push_cast at he
      simp only [Option.getD_none]
      omega
    · rw [if_neg he, if_pos hm]
      simp
  · unfold countOf
    rw [foldl_decTag_lookupC_other l m t (fun u hu e => hm (e ▸ hu))]
    rw [if_neg hm]
    ring

/-! ## Entity state machine: create / edit / delete through the tag index

An entity of one kind is (id, stored tag list).  The Go handlers normalize
the request's tags through the alias map, write the entity in one store
transaction, then call `updateTagCounts` with the (old, new) tag lists
(`NewBookmark`, `EditBookmark`, `DeleteBookmark` in `part_016`).  Go IDs are
`bookmark_<nanosecond timestamp>` strings, fresh for each create; we model
them as a monotone counter. -/

/-- Number of live entities whose stored tag list contains `t`. -/
def liveCount (es : List (Nat × List String)) (t : String) : Nat :=
  (es.filter (fun e => decide (t ∈ e.2))).length

structure EngineState where
  nextId : Nat
  entities : List (Nat × List String)
  counts : List (String × Int)

inductive Op where
  | create (tags : List String)
  | edit (id : Nat) (tags : List String)
  | del (id : Nat)

/-- One mutation through the handlers: normalize tags, write the entity,
apply the `(oldTags, newTags)` delta.  Edit/delete of an unknown id answer
404 before touching the index (`txn.Get` fails with `ErrKeyNotFound`). -/
def applyOp (aliases : List (String × String)) (s : EngineState) : Op → EngineState
  | .create tags =>
    let tags2 := normalizeTags tags aliases
    { nextId := s.nextId + 1,
      entities := s.entities ++ [(s.nextId, tags2)],
      counts := updateTagCounts s.counts [] tags2 }
  | .edit id tags =>
    match s.entities.find? (fun e => e.1 = id) with
    | none => s
    | some e =>
      let tags2 := normalizeTags tags aliases
      { nextId := s.nextId,
        entities := s.entities.map (fun e2 => if e2.1 = id then (e2.1, tags2) else e2),
        counts := updateTagCounts s.counts e.2 tags2 }
  | .del id =>
    match s.entities.find? (fun e => e.1 = id) with
    | none => s
    | some e =>
      { nextId := s.nextId,
        entities := s.entities.filter (fun e2 => e2.1 ≠ id),
        counts := updateTagCounts s.counts e.2 [] }

def initialState : EngineState := ⟨0, [], []⟩

def runOps (aliases : List (String × String)) (ops : List Op) : EngineState :=
  ops.foldl (applyOp aliases) initialState

/-- `rebuildTagCounts` (`part_016` lines 296-341): full scan of the live
entities, incrementing a fresh map once per non-empty stored tag occurrence,
then stored over the old map unconditionally. -/
def rebuildCounts (es : List (Nat × List String)) : List (String × Int) :=
  es.foldl (fun acc e => e.2.foldl incTag acc) []

def rebuildTagCounts (s : EngineState) : EngineState :=
  { s with counts := rebuildCounts s.entities }

/-- All bookkeeping that holds in every reachable state. -/
def EngineInv (s : EngineState) : Prop :=
  (∀ t, countOf s.counts t = (liveCount s.entities t : Int)) ∧
  (∀ p ∈ s.counts, 0 < p.2) ∧
  keysNodup s.counts ∧
  (∀ e ∈ s.entities, e.2.Nodup ∧ "" ∉ e.2) ∧
  (s.entities.map Prod.fst).Nodup ∧
  (∀ e ∈ s.entities, e.1 < s.nextId)

theorem map_id_of_mem {α : Type} (l : List α) (f : α → α) (h : ∀ x ∈ l, f x = x) :
    l.map f = l := by
  induction l with
  | nil => rfl
  | cons a as ih =>
    rw [List.map_cons, h a (List.mem_cons_self _ _),
      ih (fun x hx => h x (List.mem_cons_of_mem _ hx))]

theorem liveCount_nil (t : String) : liveCount [] t = 0 := rfl

theorem liveCount_cons (e : Nat × List String) (es : List (Nat × List String))
    (t : String) :
    liveCount (e :: es) t = (if t ∈ e.2 then 1 else 0) + liveCount es t := by
  unfold liveCount
  rw [List.filter_cons]
  by_cases h : t ∈ e.2
  · simp [h]; omega
  · simp [h]

theorem liveCount_append_single (es : List (Nat × List String))
    (e : Nat × List String) (t : String) :
    liveCount (es ++ [e]) t = liveCount es t + (if t ∈ e.2 then 1 else 0) := by
  unfold liveCount
  rw [List.filter_append, List.length_append, List.filter_cons]
  by_cases h : t ∈ e.2 <;> simp [h]

theorem liveCount_pos_of_mem (es : List (Nat × List String))
    (e : Nat × List String) (t : String) (he : e ∈ es) (ht : t ∈ e.2) :
    1 ≤ liveCount es t := by
  induction es with
  | nil => simp at he
  | cons e0 rest ih =>
    rw [liveCount_cons]
    rcases List.mem_cons.mp he with h | h
    · rw [← h, if_pos ht]; omega
    · have := ih h; omega

theorem liveCount_remove (es : List (Nat × List String)) (id : Nat)
    (old : List String) (t : String)
    (hnd : (es.map Prod.fst).Nodup) (hmem : (id, old) ∈ es) :
    liveCount (es.filter (fun e2 => e2.1 ≠ id)) t + (if t ∈ old then 1 else 0) =
      liveCount es t := by
  induction es with
  | nil => simp at hmem
  | cons e0 rest ih =>
    rw [List.map_cons, List.nodup_cons] at hnd
    rw [List.filter_cons, liveCount_cons]
    by_cases h0 : e0.1 = id
    · have heq : e0 = (id, old) := by
        rcases List.mem_cons.mp hmem with h | h
        · exact h.symm
        · exact absurd (h0 ▸ List.mem_map_of_mem Prod.fst h) hnd.1
      have hrest : rest.filter (fun e2 => e2.1 ≠ id) = rest := by
        apply List.filter_eq_self.mpr
        intro e2 he2
        simp only [ne_eq, decide_not, Bool.not_eq_true', decide_eq_false_iff_not]
        intro he2i
        exact hnd.1 (h0 ▸ he2i ▸ List.mem_map_of_mem Prod.fst he2)
      rw [if_neg (by simp [h0]), hrest, heq]
      simp [add_comm]
    · rw [if_pos (by simp [h0]), liveCount_cons]
      have hmem' : (id, old) ∈ rest := by
        rcases List.mem_cons.mp hmem with h | h
        · exact absurd (congrArg Prod.fst h.symm) h0
        · exact h
      have := ih hnd.2 hmem'
      omega

theorem liveCount_replace (es : List (Nat × List String)) (id : Nat)
    (old new2 : List String) (t : String)
    (hnd : (es.map Prod.fst).Nodup) (hmem : (id, old) ∈ es) :
    liveCount (es.map (fun e2 => if e2.1 = id then (e2.1, new2) else e2)) t +
        (if t ∈ old then 1 else 0) =
      liveCount es t + (if t ∈ new2 then 1 else 0) := by
  induction es with
  | nil => simp at hmem
  | cons e0 rest ih =>
    rw [List.map_cons, List.nodup_cons] at hnd
    rw [List.map_cons, liveCount_cons, liveCount_cons]
    by_cases h0 : e0.1 = id
    · have heq : e0 = (id, old) := by
        rcases List.mem_cons.mp hmem with h | h
        · exact h.symm
        · exact absurd (h0 ▸ List.mem_map_of_mem Prod.fst h) hnd.1
      have hrest : rest.map (fun e2 => if e2.1 = id then (e2.1, new2) else e2) = rest := by
        apply map_id_of_mem
        intro e2 he2
        have hne : e2.1 ≠ id := by
          intro he2i
          apply hnd.1
          rw [h0, ← he2i]
          exact List.mem_map_of_mem Prod.fst he2
        rw [if_neg hne]
      rw [if_pos h0, hrest]
      have h2 : e0.2 = old := by rw [heq]
      rw [h2]
      dsimp only
      omega
    · rw [if_neg h0]
      have hmem' : (id, old) ∈ rest := by
        rcases List.mem_cons.mp hmem with h | h
        · exact absurd (congrArg Prod.fst h.symm) h0
        · exact h
      have := ih hnd.2 hmem'
      omega

theorem find?_entity (es : List (Nat × List String)) (id : Nat)
    (e : Nat × List String) (h : es.find? (fun e2 => e2.1 = id) = some e) :
    e ∈ es ∧ e.1 = id := by
  refine ⟨List.mem_of_find?_eq_some h, ?_⟩
  have := List.find?_some h
  simpa using this

theorem updateTagCounts_nil_old (m : List (String × Int)) (l : List String) :
    updateTagCounts m [] l = l.foldl incTag m := rfl

theorem updateTagCounts_nil_new (m : List (String × Int)) (l : List String) :
    updateTagCounts m l [] = l.foldl decTag m := rfl

theorem normalizeTags_not_mem_empty (tags : List String)
    (aliases : List (String × String)) : "" ∉ normalizeTags tags aliases :=
  fun h => normalizeTags_ne_empty tags aliases "" h rfl

theorem map_fst_replace (es : List (Nat × List String)) (id : Nat)
    (tags2 : List String) :
    (es.map (fun e2 => if e2.1 = id then (e2.1, tags2) else e2)).map Prod.fst =
      es.map Prod.fst := by
  induction es with
  | nil => rfl
  | cons a as ih =>
    simp only [List.map_cons, ih]
    congr 1
    by_cases h : a.1 = id
    · rw [if_pos h]
    · rw [if_neg h]

theorem engineInv_initial : EngineInv initialState := by
  refine ⟨fun t => rfl, ?_, ?_, ?_, ?_, ?_⟩ <;> simp [initialState, keysNodup]

theorem engineInv_applyOp (aliases : List (String × String)) (s : EngineState)
    (op : Op) (h : EngineInv s) : EngineInv (applyOp aliases s op) := by
  obtain ⟨hcnt, hpos, hknd, hent, hids, hbnd⟩ := h
  cases op with
  | create tags =>
    have hnd2 := normalizeTags_nodup tags aliases
    have hne2 := normalizeTags_not_mem_empty tags aliases
    refine ⟨?_, ?_, ?_, ?_, ?_, ?_⟩
    · intro t
      show countOf (updateTagCounts s.counts [] (normalizeTags tags aliases)) t = _
      rw [updateTagCounts_nil_old,
        countOf_foldl_incTag _ _ t hnd2 hne2, hcnt t]
      show _ = ((liveCount (s.entities ++ [(s.nextId, normalizeTags tags aliases)]) t : Nat) : Int)
      rw [liveCount_append_single]
      push_cast
      rfl
    · exact pos_foldl_incTag _ _ hpos
    · exact keysNodup_foldl_incTag _ _ hknd
    · intro e he
      rcases List.mem_append.mp he with h' | h'
      · exact hent e h'
      · have : e = (s.nextId, normalizeTags tags aliases) := by simpa using h'
        rw [this]
        exact ⟨hnd2, hne2⟩
    · show ((s.entities ++ [(s.nextId, normalizeTags tags aliases)]).map Prod.fst).Nodup
      rw [List.map_append]
      apply List.Nodup.append hids (by simp)
      intro a ha hb
      simp at hb
      rcases List.mem_map.mp ha with ⟨e, he, hae⟩
      have := hbnd e he
      omega
    · intro e he
      rcases List.mem_append.mp he with h' | h'
      · have := hbnd e h'
        show e.1 < s.nextId + 1
        omega
      · have : e = (s.nextId, normalizeTags tags aliases) := by simpa using h'
        rw [this]
        show s.nextId < s.nextId + 1
        omega
  | edit id tags =>
    show EngineInv (match s.entities.find? (fun e => e.1 = id) with
      | none => s
      | some e => _)
    cases hfind : s.entities.find? (fun e => e.1 = id) with
    | none => exact ⟨hcnt, hpos, hknd, hent, hids, hbnd⟩
    | some e =>
      obtain ⟨he_mem, he_id⟩ := find?_entity _ _ _ hfind
      obtain ⟨hold_nd, hold_ne⟩ := hent e he_mem
      have hnd2 := normalizeTags_nodup tags aliases
      have hne2 := normalizeTags_not_mem_empty tags aliases
      have hge : ∀ u ∈ e.2, 1 ≤ countOf s.counts u := by
        intro u hu
        rw [hcnt u]
        exact_mod_cast liveCount_pos_of_mem s.entities e u he_mem hu
      have hmem2 : (id, e.2) ∈ s.entities := by
        rw [← he_id]
        exact he_mem
      refine ⟨?_, ?_, ?_, ?_, ?_, ?_⟩
      · intro t
        show countOf (updateTagCounts s.counts e.2 (normalizeTags tags aliases)) t = _
        unfold updateTagCounts
        rw [countOf_foldl_incTag _ _ t hnd2 hne2,
          countOf_foldl_decTag _ _ t hold_nd hold_ne hge, hcnt t]
        have hlc := liveCount_replace s.entities id e.2 (normalizeTags tags aliases) t
          hids hmem2
        have hlcZ := congrArg (Nat.cast : Nat → Int) hlc
        push_cast at hlcZ ⊢
        omega
      · exact pos_foldl_incTag _ _ (pos_foldl_decTag _ _ hpos)
      · exact keysNodup_foldl_incTag _ _ (keysNodup_foldl_decTag _ _ hknd)
      · intro e2 he2
        rcases List.mem_map.mp he2 with ⟨e0, he0, he0e⟩
        by_cases h0 : e0.1 = id
        · rw [← he0e, if_pos h0]
          exact ⟨hnd2, hne2⟩
        · rw [← he0e, if_neg h0]
          exact hent e0 he0
      · show ((s.entities.map _).map Prod.fst).Nodup
        rw [map_fst_replace]
        exact hids
      · intro e2 he2
        rcases List.mem_map.mp he2 with ⟨e0, he0, he0e⟩
        have := hbnd e0 he0
        by_cases h0 : e0.1 = id
        · rw [← he0e, if_pos h0]
          exact this
        · rw [← he0e, if_neg h0]
          exact this
  | del id =>
    show EngineInv (match s.entities.find? (fun e => e.1 = id) with
      | none => s
      | some e => _)
    cases hfind : s.entities.find? (fun e => e.1 = id) with
    | none => exact ⟨hcnt, hpos, hknd, hent, hids, hbnd⟩
    | some e =>
      obtain ⟨he_mem, he_id⟩ := find?_entity _ _ _ hfind
      obtain ⟨hold_nd, hold_ne⟩ := hent e he_mem
      have hge : ∀ u ∈ e.2, 1 ≤ countOf s.counts u := by
        intro u hu
        rw [hcnt u]
        exact_mod_cast liveCount_pos_of_mem s.entities e u he_mem hu
      have hmem2 : (id, e.2) ∈ s.entities := by
        rw [← he_id]
        exact he_mem
      refine ⟨?_, ?_, ?_, ?_, ?_, ?_⟩
      · intro t
        show countOf (updateTagCounts s.counts e.2 []) t = _
        rw [updateTagCounts_nil_new,
          countOf_foldl_decTag _ _ t hold_nd hold_ne hge, hcnt t]
        have hlc := liveCount_remove s.entities id e.2 t hids hmem2
        have hlcZ := congrArg (Nat.cast : Nat → Int) hlc
        push_cast at hlcZ ⊢
        omega
      · exact pos_foldl_decTag _ _ hpos
      · exact keysNodup_foldl_decTag _ _ hknd
      · intro e2 he2
        exact hent e2 (List.mem_of_mem_filter he2)
      · exact ((List.filter_sublist s.entities).map Prod.fst).nodup hids
      · intro e2 he2
        exact hbnd e2 (List.mem_of_mem_filter he2)

theorem engineInv_runOps (aliases : List (String × String)) (ops : List Op) :
    EngineInv (runOps aliases ops) := by
  suffices h : ∀ s, EngineInv s → EngineInv (ops.foldl (applyOp aliases) s) from
    h initialState engineInv_initial
  induction ops with
  | nil => exact fun s hs => hs
  | cons op rest ih =>
    intro s hs
    exact ih _ (engineInv_applyOp aliases s op hs)

/-- C1: in every state reachable by create/edit/delete operations applied
through the tag-count index, the persisted count-map entry of each tag `t`
equals the number of live entities whose (normalized-at-write) tag set
contains `t` — absent keys reading as zero — and every entry actually stored
in the map is strictly positive, i.e. a tag whose count would drop to 0 is
removed rather than stored as 0 or negative. -/
theorem C1_tag_count_invariant (aliases : List (String × String)) (ops : List Op) :
    (∀ t, countOf (runOps aliases ops).counts t =
      (liveCount (runOps aliases ops).entities t : Int)) ∧
    (∀ p ∈ (runOps aliases ops).counts, 0 < p.2) := by
  obtain ⟨h1, h2, _⟩ := engineInv_runOps aliases ops
  exact ⟨h1, h2⟩

/-! ## Rebuild (C2) -/

/-- Modelled on the spec sentence for `rebuild()`: the map obtained by
scanning all live entities and counting, per tag, the entities whose
normalized tag set contains it. -/
def specScanCount (aliases : List (String × String))
    (es : List (Nat × List String)) (t : String) : Nat :=
  (es.filter (fun e => decide (t ∈ normalizeTags e.2 aliases))).length

theorem countOf_rebuild_fold (es : List (Nat × List String))
    (acc : List (String × Int)) (t : String)
    (h : ∀ e ∈ es, e.2.Nodup ∧ "" ∉ e.2) :
    countOf (es.foldl (fun acc2 e => e.2.foldl incTag acc2) acc) t =
      countOf acc t + (liveCount es t : Int) := by
  induction es generalizing acc with
  | nil => simp [liveCount_nil]
  | cons e rest ih =>
    rw [List.foldl_cons]
    obtain ⟨hnd, hne⟩ := h e (List.mem_cons_self _ _)
    rw [ih _ (fun e2 he2 => h e2 (List.mem_cons_of_mem _ he2)),
      countOf_foldl_incTag _ _ t hnd hne, liveCount_cons]
    push_cast
    ring

/-- C2: `rebuild()` ignores whatever count map was persisted before —
however corrupted — and stores exactly the map obtained by scanning the
live entities and counting, per tag, the entities whose normalized tag set
contains it (the hypothesis says the stored entity tag lists are in
normalized form, which holds for everything written through the engine). -/
theorem C2_rebuild_overwrites_from_scan (s : EngineState)
    (aliases : List (String × String))
    (hfix : ∀ e ∈ s.entities, normalizeTags e.2 aliases = e.2) :
    (∀ priorCounts, (rebuildTagCounts { s with counts := priorCounts }).counts =
      (rebuildTagCounts s).counts) ∧
    (∀ t, countOf (rebuildTagCounts s).counts t =
      (specScanCount aliases s.entities t : Int)) := by
  constructor
  · intro priorCounts
    rfl
  · intro t
    have hprops : ∀ e ∈ s.entities, e.2.Nodup ∧ "" ∉ e.2 := by
      intro e he
      constructor
      · rw [← hfix e he]
        exact normalizeTags_nodup _ _
      · rw [← hfix e he]
        exact normalizeTags_not_mem_empty _ _
    show countOf (rebuildCounts s.entities) t = _
    unfold rebuildCounts
    rw [countOf_rebuild_fold s.entities [] t hprops]
    unfold specScanCount liveCount
    have hfe : List.filter (fun e => decide (t ∈ normalizeTags e.2 aliases)) s.entities =
        List.filter (fun e => decide (t ∈ e.2)) s.entities :=
      List.filter_congr (fun e he => by rw [hfix e he])
    rw [hfe]
    simp [countOf, lookupC]

/-- Witness for C2 at a concrete corrupted prior state. -/
theorem C2_rebuild_overwrites_from_scan_witness :
    (rebuildTagCounts ⟨2, [(0, ["ai"]), (1, ["ai", "ml"])], [("stale", 99), ("ai", -3)]⟩).counts =
      (rebuildTagCounts ⟨2, [(0, ["ai"]), (1, ["ai", "ml"])], []⟩).counts ∧
    countOf (rebuildTagCounts ⟨2, [(0, ["ai"]), (1, ["ai", "ml"])], []⟩).counts "ai" =
      (specScanCount [("a.i.", "ai")] [(0, ["ai"]), (1, ["ai", "ml"])] "ai" : Int) := by
  constructor
  · exact (C2_rebuild_overwrites_from_scan ⟨2, [(0, ["ai"]), (1, ["ai", "ml"])], []⟩
      [("a.i.", "ai")] (by decide)).1 [("stale", 99), ("ai", -3)]
  · exact (C2_rebuild_overwrites_from_scan ⟨2, [(0, ["ai"]), (1, ["ai", "ml"])], []⟩
      [("a.i.", "ai")] (by decide)).2 "ai"

/-! ## Delta algebra: inverse (C7) and frame (C10) -/

theorem foldl_decTag_lookupC_skip (l : List String) (m : List (String × Int))
    (t : String) (h : ∀ u ∈ l, u = "" ∨ u ≠ t) :
    lookupC (l.foldl decTag m) t = lookupC m t := by
  induction l generalizing m with
  | nil => rfl
  | cons u us ih =>
    rw [List.foldl_cons, ih _ (fun v hv => h v (List.mem_cons_of_mem _ hv))]
    rcases h u (List.mem_cons_self _ _) with hu | hu
    · rw [hu, decTag_empty]
    · exact decTag_lookupC_other m u t hu

/-- C7 (amended): on a well-formed count map — every stored entry positive,
as guaranteed for every map the engine itself writes — `applyDelta([], T)`
followed by `applyDelta(T, [])` restores the map exactly: every key reads
back identically (a Go map is exactly its key-to-value lookup). -/
theorem C7_delta_inverse_on_wellformed (m : List (String × Int)) (T : List String)
    (hpos : ∀ p ∈ m, 0 < p.2) :
    ∀ t, lookupC (updateTagCounts (updateTagCounts m [] T) T []) t = lookupC m t := by
  intro t
  rw [updateTagCounts_nil_old, updateTagCounts_nil_new]
  by_cases ht : t = ""
  · rw [foldl_decTag_lookupC_skip T _ t (fun u hu => by
      by_cases h : u = ""
      · exact Or.inl h
      · exact Or.inr (fun e => h (e.trans ht)))]
    exact foldl_incTag_lookupC_other T m t (fun u hu => by
      by_cases h : u = ""
      · exact Or.inl h
      · exact Or.inr (fun e => h (e.trans ht)))
  · by_cases hm : t ∈ T
    · have hcz : 0 < T.count t := List.count_pos_iff.mpr hm
      cases hl : lookupC m t with
      | none =>
        rw [foldl_decTag_lookupC T _ t ((T.count t : Int)) ht
          (foldl_incTag_lookupC_none T m t ht hl hm) (by exact_mod_cast hcz) le_rfl]
        rw [if_pos rfl]
      | some c =>
        have hc1 : 0 < c := hpos _ (lookupC_mem m t c hl)
        rw [foldl_decTag_lookupC T _ t (c + (T.count t : Int)) ht
          (foldl_incTag_lookupC_some T m t c ht hl) (by omega) (by omega)]
        rw [if_neg (by omega)]
        congr 1
        omega
    · rw [foldl_decTag_lookupC_skip T _ t (fun u hu => Or.inr (fun e => hm (e ▸ hu)))]
      exact foldl_incTag_lookupC_other T m t (fun u hu => Or.inr (fun e => hm (e ▸ hu)))

/-- Witness for C7 on a concrete well-formed map. -/
theorem C7_delta_inverse_on_wellformed_witness :
    lookupC (updateTagCounts (updateTagCounts [("a", 2)] [] ["a", "b"]) ["a", "b"] []) "a" =
      lookupC [("a", 2)] "a" :=
  C7_delta_inverse_on_wellformed [("a", 2)] ["a", "b"] (by decide) "a"

/-- C7 counterexample: on an arbitrary (corrupted) prior map the round trip
is not the identity — a stored zero entry is dropped by the delete delta,
so the persisted map is not exactly the prior one. -/
theorem C7_delta_inverse_counterexample :
    lookupC (updateTagCounts (updateTagCounts [("x", 0)] [] ["x"]) ["x"] []) "x" ≠
      lookupC [("x", 0)] "x" := by
  decide

/-- C10: `applyDelta(oldTags, newTags)` touches only the keys named in
`oldTags` or `newTags`: any other key reads back exactly as before (same
presence, same value).  Decrementing a tag that has no stored entry, or the
empty-string tag, leaves the map entirely unchanged (and the per-tag logic
is total — it cannot fail). -/
theorem C10_delta_frame (m : List (String × Int)) (oldTags newTags : List String)
    (t : String) :
    (t ∉ oldTags → t ∉ newTags →
      lookupC (updateTagCounts m oldTags newTags) t = lookupC m t) ∧
    (lookupC m t = none → decTag m t = m) ∧
    decTag m "" = m := by
  refine ⟨?_, ?_, decTag_empty m⟩
  · intro h1 h2
    unfold updateTagCounts
    rw [foldl_incTag_lookupC_other _ _ t (fun u hu => Or.inr (fun e => h2 (e ▸ hu)))]
    exact foldl_decTag_lookupC_other _ _ t (fun u hu e => h1 (e ▸ hu))
  · intro hnone
    by_cases ht : t = ""
    · rw [ht]; exact decTag_empty m
    · exact decTag_of_none m t ht hnone

/-- Witness for C10 on concrete inputs. -/
theorem C10_delta_frame_witness :
    lookupC (updateTagCounts [("keep", 2)] ["gone"] ["added"]) "keep" =
        lookupC [("keep", 2)] "keep" ∧
    decTag [("a", 1)] "missing" = [("a", 1)] ∧
    decTag [("a", 1)] "" = [("a", 1)] :=
  ⟨(C10_delta_frame [("keep", 2)] ["gone"] ["added"] "keep").1 (by decide) (by decide),
   (C10_delta_frame [("a", 1)] [] [] "missing").2.1 (by decide),
   (C10_delta_frame [("a", 1)] [] [] "x").2.2⟩

/-! ## `normalizeTags` algebra (C5) -/

theorem canonOf_idem (m : List (String × String))
    (hcf : ∀ t, aliasGet m t ≠ "" → aliasGet m (aliasGet m t) = "")
    (t : String) : canonOf m (canonOf m t) = canonOf m t := by
  by_cases h : aliasGet m t = ""
  · have h1 : canonOf m t = t := by unfold canonOf; rw [if_pos h]
    rw [h1]
    exact h1
  · have h1 : canonOf m t = aliasGet m t := by unfold canonOf; rw [if_neg h]
    rw [h1]
    unfold canonOf
    rw [hcf t h, if_pos rfl]

theorem normalizeTags_eq_go (l : List String) (m : List (String × String))
    (h : l ≠ []) : normalizeTags l m = normalizeTagsGo [] l m := by
  unfold normalizeTags
  rw [if_neg h]

theorem normalizeTagsGo_fixed (m : List (String × String)) :
    ∀ (l seen : List String), l.Nodup → "" ∉ l → (∀ c ∈ l, canonOf m c = c) →
      (∀ c ∈ l, c ∉ seen) → normalizeTagsGo seen l m = l := by
  intro l
  induction l with
  | nil => intro seen _ _ _ _; rfl
  | cons c rest ih =>
    intro seen hnd hne hfix hseen
    rw [List.nodup_cons] at hnd
    unfold normalizeTagsGo
    have hc : c ≠ "" := fun e => hne (e ▸ List.mem_cons_self _ _)
    rw [if_neg hc]
    have hfc : canonOf m c = c := hfix c (List.mem_cons_self _ _)
    rw [hfc]
    have hnc : ¬ seen.contains c = true := by
      simpa using hseen c (List.mem_cons_self _ _)
    rw [if_neg hnc]
    congr 1
    apply ih (c :: seen) hnd.2 (fun e => hne (List.mem_cons_of_mem _ e))
      (fun x hx => hfix x (List.mem_cons_of_mem _ hx))
    intro x hx
    simp only [List.mem_cons]
    push_neg
    exact ⟨fun e => hnd.1 (e ▸ hx), hseen x (List.mem_cons_of_mem _ hx)⟩

/-- C5 (first part as claimed; idempotence amended): `normalizeTags` never
returns more distinct tags than its input has, and — provided the alias map
is chain-free, i.e. no alias target is itself an alias key — re-applying it
to its own output is a no-op.  (With a chained map idempotence is false:
see the counterexample.) -/
theorem C5_normalizeTags_count_and_idem (T : List String) (m : List (String × String)) :
    (normalizeTags T m).length ≤ T.dedup.length ∧
    ((∀ t, aliasGet m t ≠ "" → aliasGet m (aliasGet m t) = "") →
      normalizeTags (normalizeTags T m) m = normalizeTags T m) := by
  constructor
  · have hnd := normalizeTags_nodup T m
    calc (normalizeTags T m).length = (normalizeTags T m).toFinset.card := by
          rw [List.toFinset_card_of_nodup hnd]
      _ ≤ (T.toFinset.image (canonOf m)).card := by
          apply Finset.card_le_card
          intro c hc
          rw [List.mem_toFinset] at hc
          rcases normalizeTags_mem_canon T m c hc with ⟨t, ht, _, hcan⟩
          rw [Finset.mem_image]
          exact ⟨t, List.mem_toFinset.mpr ht, hcan.symm⟩
      _ ≤ T.toFinset.card := Finset.card_image_le
      _ = T.dedup.length := by rw [List.card_toFinset]
  · intro hcf
    have hnd := normalizeTags_nodup T m
    have hne := normalizeTags_not_mem_empty T m
    have hfix : ∀ c ∈ normalizeTags T m, canonOf m c = c := by
      intro c hc
      rcases normalizeTags_mem_canon T m c hc with ⟨t, _, _, hcan⟩
      rw [hcan, canonOf_idem m hcf t]
    by_cases h : normalizeTags T m = []
    · rw [h]
      rfl
    · rw [normalizeTags_eq_go _ m h]
      exact normalizeTagsGo_fixed m _ [] hnd hne hfix (fun c _ => List.not_mem_nil c)

/-- Witness for C5 with a chain-free alias map. -/
theorem C5_normalizeTags_count_and_idem_witness :
    (normalizeTags ["a.i.", "ai", ""] [("a.i.", "ai")]).length ≤
        (["a.i.", "ai", ""] : List String).dedup.length ∧
    normalizeTags (normalizeTags ["a.i.", "ai", ""] [("a.i.", "ai")]) [("a.i.", "ai")] =
      normalizeTags ["a.i.", "ai", ""] [("a.i.", "ai")] := by
  have h := C5_normalizeTags_count_and_idem ["a.i.", "ai", ""] [("a.i.", "ai")]
  refine ⟨h.1, h.2 ?_⟩
  intro t ht
  by_cases he : t = "a.i."
  · subst he
    decide
  · exfalso
    apply ht
    unfold aliasGet
    rw [List.find?_cons, decide_eq_false (fun e => he (by simpa using e.symm))]
    rfl

/-- C5 counterexample: with an alias chain a→b, b→c the claimed unconditional
idempotence fails — the second application follows one more hop. -/
theorem C5_idempotence_counterexample :
    normalizeTags (normalizeTags ["a"] [("a", "b"), ("b", "c")]) [("a", "b"), ("b", "c")] ≠
      normalizeTags ["a"] [("a", "b"), ("b", "c")] := by
  decide

/-! ## ExpressionEvaluator (`part_016` lines 102-220)

The evaluator works by text substitution over the expression string; we
model the string as `List Char` (the engine's data is ASCII, where Go's
byte indexing agrees with character indexing).  The Go `for`/`regexp`
loops are written with an explicit iteration budget (`Nat` fuel): running
out of fuel models an iteration count the Go loop would exceed, and a loop
whose one pass leaves the string unchanged while its `strings.Contains`
guard still holds spins forever in Go — in the model it returns `none` for
every budget.  Scanning helpers are given a step budget of the input
length, which a left-to-right scan never exhausts. -/

/-- `strings.ToLower`, ASCII fragment. -/
def lowerChar (c : Char) : Char :=
  if 65 ≤ c.toNat ∧ c.toNat ≤ 90 then Char.ofNat (c.toNat + 32) else c

/-- Character class of the word regex `[a-zA-Z0-9_-]`. -/
def isWordChar (c : Char) : Bool :=
  (48 ≤ c.toNat && c.toNat ≤ 57) || (65 ≤ c.toNat && c.toNat ≤ 90) ||
    (97 ≤ c.toNat && c.toNat ≤ 122) || c.toNat == 95 || c.toNat == 45

/-- Lower-case letters, digits and underscore: tag characters that are also
regex word characters for the `\b` boundary and fixed by `ToLower`. -/
def isPlainTagChar (c : Char) : Bool :=
  (48 ≤ c.toNat && c.toNat ≤ 57) || (97 ≤ c.toNat && c.toNat ≤ 122) || c.toNat == 95

/-- One maximal run of `[a-zA-Z0-9_-]` characters, rewritten the way
`\b[a-zA-Z0-9_-]+\b` matches inside it: the `\b` anchors exclude leading
and trailing hyphens (not word characters for `\b`), so the replacement
function sees the run from its first to its last non-hyphen character. -/
def applyRun (f : List Char → List Char) (run : List Char) : List Char :=
  if (run.dropWhile (fun c => c == '-')) = [] then run
  else
    run.takeWhile (fun c => c == '-') ++
      f (((run.dropWhile (fun c => c == '-')).reverse.dropWhile (fun c => c == '-')).reverse) ++
      ((run.dropWhile (fun c => c == '-')).reverse.takeWhile (fun c => c == '-')).reverse

/-- `wordRegex.ReplaceAllStringFunc`: walk the text accumulating the current
word run (in reverse) and flush it through `applyRun` at each break. -/
def replWordsGo (f : List Char → List Char) : List Char → List Char → List Char
  | run, [] => if run = [] then [] else applyRun f run.reverse
  | run, c :: cs =>
    if isWordChar c then replWordsGo f (c :: run) cs
    else (if run = [] then [] else applyRun f run.reverse) ++ c :: replWordsGo f [] cs

def replWords (f : List Char → List Char) (e : List Char) : List Char :=
  replWordsGo f [] e

/-- The per-word substitution of `evaluateTagExpression`: logical operators
pass through, any other word becomes `true`/`false` by membership in the
(lower-cased) tag set.  The word is already lower-case here because the
whole expression was lower-cased first. -/
def substWord (ts : List (List Char)) (w : List Char) : List Char :=
  if w = "and".toList || w = "or".toList || w = "not".toList then w
  else if ts.contains w then "true".toList else "false".toList

/-- `strings.ReplaceAll` (left-to-right, non-overlapping), with a step
budget of the input length — one step per consumed character suffices. -/
def replaceAllGo (pat rep : List Char) : Nat → List Char → List Char
  | _, [] => []
  | 0, e => e
  | n + 1, c :: cs =>
    if pat ≠ [] ∧ pat.isPrefixOf (c :: cs) then
      rep ++ replaceAllGo pat rep n (cs.drop (pat.length - 1))
    else c :: replaceAllGo pat rep n cs

def replaceAllL (pat rep e : List Char) : List Char :=
  replaceAllGo pat rep e.length e

/-- The whitespace class of Go regexp `\s`. -/
def isWs (c : Char) : Bool :=
  c == ' ' || c == '\t' || c == '\n' || c == '\r' || c.toNat == 12

/-- `regexp \s+ -> " "`: collapse whitespace runs to single spaces. -/
def collapseWsGo : Nat → List Char → List Char
  | _, [] => []
  | 0, e => e
  | n + 1, c :: cs =>
    if isWs c then ' ' :: collapseWsGo n (cs.dropWhile isWs) else c :: collapseWsGo n cs

def collapseWs (e : List Char) : List Char :=
  collapseWsGo e.length e

/-- `strings.TrimSpace`. -/
def trimSpaceL (e : List Char) : List Char :=
  ((e.dropWhile isWs).reverse.dropWhile isWs).reverse

/-- `strings.Contains`. -/
def containsSub (pat : List Char) : List Char → Bool
  | [] => pat.isPrefixOf []
  | c :: cs => pat.isPrefixOf (c :: cs) || containsSub pat cs

/-- The parenthesis scan of `evaluateSimpleBooleanExpression`: remember the
last `'('` seen, stop at the first `')'` that follows one. -/
def scanParenGo (i : Nat) (start : Option Nat) : List Char → Option (Nat × Nat)
  | [] => none
  | c :: cs =>
    if c = '(' then scanParenGo (i + 1) (some i) cs
    else if c = ')' then
      match start with
      | some s => some (s, i)
      | none => scanParenGo (i + 1) none cs
    else scanParenGo (i + 1) start cs

def scanParen (e : List Char) : Option (Nat × Nat) :=
  scanParenGo 0 none e

/-- One pass of `regexp !(true|false)` replacement. -/
def replaceNotGo : Nat → List Char → List Char
  | _, [] => []
  | 0, e => e
  | n + 1, c :: cs =>
    if c = '!' then
      if "true".toList.isPrefixOf cs then "false".toList ++ replaceNotGo n (cs.drop 4)
      else if "false".toList.isPrefixOf cs then "true".toList ++ replaceNotGo n (cs.drop 5)
      else c :: replaceNotGo n cs
    else c :: replaceNotGo n cs

def replaceNot (e : List Char) : List Char :=
  replaceNotGo e.length e

/-- One pass of `regexp (true|false)&&(true|false)` replacement; the four
alternatives are pairwise prefix-incompatible, so matching is unambiguous. -/
def replaceAndGo : Nat → List Char → List Char
  | _, [] => []
  | 0, e => e
  | n + 1, c :: cs =>
    if "true&&true".toList.isPrefixOf (c :: cs) then "true".toList ++ replaceAndGo n (cs.drop 9)
    else if "true&&false".toList.isPrefixOf (c :: cs) then
      "false".toList ++ replaceAndGo n (cs.drop 10)
    else if "false&&true".toList.isPrefixOf (c :: cs) then
      "false".toList ++ replaceAndGo n (cs.drop 10)
    else if "false&&false".toList.isPrefixOf (c :: cs) then
      "false".toList ++ replaceAndGo n (cs.drop 11)
    else c :: replaceAndGo n cs

def replaceAnd (e : List Char) : List Char :=
  replaceAndGo e.length e

/-- One pass of `regexp (true|false)\|\|(true|false)` replacement. -/
def replaceOrGo : Nat → List Char → List Char
  | _, [] => []
  | 0, e => e
  | n + 1, c :: cs =>
    if "true||true".toList.isPrefixOf (c :: cs) then "true".toList ++ replaceOrGo n (cs.drop 9)
    else if "true||false".toList.isPrefixOf (c :: cs) then
      "true".toList ++ replaceOrGo n (cs.drop 10)
    else if "false||true".toList.isPrefixOf (c :: cs) then
      "true".toList ++ replaceOrGo n (cs.drop 10)
    else if "false||false".toList.isPrefixOf (c :: cs) then
      "false".toList ++ replaceOrGo n (cs.drop 11)
    else c :: replaceOrGo n cs

def replaceOr (e : List Char) : List Char :=
  replaceOrGo e.length e

/-- A Go `for cond { e = step(e) }` loop with an iteration budget. -/
def iterLoop (cond : List Char → Bool) (step : List Char → List Char) :
    Nat → List Char → Option (List Char)
  | 0, e => if cond e then none else some e
  | f + 1, e => if cond e then iterLoop cond step f (step e) else some e

/-- `evaluateWithoutParentheses`: reduce `!`, then `&&`, then `||`, each by
a rewrite-to-fixpoint loop, then compare with `"true"`. -/
def evalNoParens (f : Nat) (e : List Char) : Option Bool :=
  match iterLoop (fun x => x.contains '!') replaceNot f e with
  | none => none
  | some e1 =>
    match iterLoop (fun x => containsSub "&&".toList x) replaceAnd f e1 with
    | none => none
    | some e2 =>
      match iterLoop (fun x => containsSub "||".toList x) replaceOr f e2 with
      | none => none
      | some e3 => some (e3 == "true".toList)

/-- The parenthesis loop of `evaluateSimpleBooleanExpression`: while a `'('`
is present, find an innermost group, evaluate it recursively and splice in
its literal boolean.  When the scan finds no replaceable group (a `'('`
with no `')'` after it) the Go loop repeats the identical iteration
forever; the model recurses on the unchanged string until fuel ends. -/
def parenPhase : Nat → List Char → Option Bool
  | 0, e => if e.contains '(' then none else evalNoParens 0 e
  | f + 1, e =>
    if e.contains '(' then
      match scanParen e with
      | none => parenPhase f e
      | some (s, i) =>
        match parenPhase f (((e.drop (s + 1)).take (i - s - 1)).filter (fun c => c ≠ ' ')) with
        | none => none
        | some b =>
          parenPhase f (e.take s ++ (if b then "true".toList else "false".toList) ++ e.drop (i + 1))
    else evalNoParens (f + 1) e

/-- `evaluateSimpleBooleanExpression`: strip spaces, then the paren loop. -/
def evaluateSimpleBooleanExpression (f : Nat) (e : List Char) : Option Bool :=
  parenPhase f (e.filter (fun c => c ≠ ' '))

/-- `evaluateTagExpression` (`part_016` lines 102-144): empty expression is
`true`; otherwise lower-case everything, substitute each word by its tag-set
membership, rewrite the word operators to `&&`/`||`/`!`, tidy whitespace
and run the boolean reducer. -/
def evaluateTagExpression (f : Nat) (bookmarkTags : List String) (expression : String) :
    Option Bool :=
  if expression = "" then some true
  else
    evaluateSimpleBooleanExpression f
      (trimSpaceL (collapseWs
        (replaceAllL "not ".toList "!".toList
          (replaceAllL " not ".toList " !".toList
            (replaceAllL " or ".toList " || ".toList
              (replaceAllL " and ".toList " && ".toList
                (replWords (substWord (bookmarkTags.map (fun t => t.toList.map lowerChar)))
                  (expression.toList.map lowerChar))))))))

/-! ### Loop behavior lemmas -/

theorem iterLoop_step (cond : List Char → Bool) (step : List Char → List Char)
    (f : Nat) (e : List Char) (h : cond e = true) :
    iterLoop cond step (f + 1) e = iterLoop cond step f (step e) := by
  simp [iterLoop, h]

theorem iterLoop_done (cond : List Char → Bool) (step : List Char → List Char)
    (f : Nat) (e : List Char) (h : cond e = false) :
    iterLoop cond step f e = some e := by
  cases f <;> simp [iterLoop, h]

theorem iterLoop_stuck (cond : List Char → Bool) (step : List Char → List Char)
    (e : List Char) (hc : cond e = true) (hstep : step e = e) :
    ∀ f, iterLoop cond step f e = none := by
  intro f
  induction f with
  | zero => simp [iterLoop, hc]
  | succ f ih => simp [iterLoop, hc, hstep, ih]

theorem parenPhase_no_paren (f : Nat) (e : List Char) (h : e.contains '(' = false) :
    parenPhase f e = evalNoParens f e := by
  have hnot : ¬ (e.contains '(' = true) := by rw [h]; exact Bool.false_ne_true
  cases f with
  | zero => exact if_neg hnot
  | succ n => exact if_neg hnot

/-- A `'('` with no `')'` after it makes the paren loop repeat the identical
iteration: it never finishes, for any iteration budget. -/
theorem parenPhase_stuck (e : List Char) (hc : e.contains '(' = true)
    (hs : scanParen e = none) : ∀ f, parenPhase f e = none := by
  have hmem : '(' ∈ e := by simpa using hc
  intro f
  induction f with
  | zero => simp [parenPhase, hmem]
  | succ f ih => simp [parenPhase, hmem, hs, ih]

/-- C3 evidence: on the malformed expression `"(web"` — an unbalanced open
parenthesis — the evaluator neither returns `false` nor reports an error:
the paren-resolution loop of `evaluateSimpleBooleanExpression` spins
forever (no budget suffices), contradicting the required behavior. -/
theorem C3_unbalanced_paren_diverges :
    ∀ f, evaluateTagExpression f [] "(web" = none := by
  intro f
  show parenPhase f ("(false".toList) = none
  exact parenPhase_stuck _ (by decide) (by decide) f

/-! ### Word-substitution lemmas for abstract tags (C8) -/

theorem isPlainTagChar_elim (c : Char) (h : isPlainTagChar c = true) :
    (48 ≤ c.toNat ∧ c.toNat ≤ 57) ∨ (97 ≤ c.toNat ∧ c.toNat ≤ 122) ∨ c.toNat = 95 := by
  simp only [isPlainTagChar, Bool.or_eq_true, Bool.and_eq_true, decide_eq_true_eq,
    beq_iff_eq] at h
  omega

theorem lowerChar_plain (c : Char) (h : isPlainTagChar c = true) : lowerChar c = c := by
  have h2 := isPlainTagChar_elim c h
  unfold lowerChar
  rw [if_neg (by omega)]

theorem isWordChar_plain (c : Char) (h : isPlainTagChar c = true) : isWordChar c = true := by
  have h2 := isPlainTagChar_elim c h
  simp only [isWordChar, Bool.or_eq_true, Bool.and_eq_true, decide_eq_true_eq, beq_iff_eq]
  omega

theorem plain_ne_hyphen (c : Char) (h : isPlainTagChar c = true) : (c == '-') = false := by
  have h2 := isPlainTagChar_elim c h
  have hne : c.toNat ≠ 45 := by omega
  simp only [beq_eq_false_iff_ne, ne_eq]
  intro e
  apply hne
  rw [e]
  rfl

theorem applyRun_plain (f : List Char → List Char) (r : List Char) (hr : r ≠ [])
    (h : ∀ c ∈ r, isPlainTagChar c = true) : applyRun f r = f r := by
  obtain ⟨c, cs, rfl⟩ := List.exists_cons_of_ne_nil hr
  have hc := plain_ne_hyphen c (h c (List.mem_cons_self _ _))
  have hdrop : (c :: cs).dropWhile (fun x => x == '-') = c :: cs := by
    rw [List.dropWhile_cons]
    simp [hc]
  have htake : (c :: cs).takeWhile (fun x => x == '-') = [] := by
    rw [List.takeWhile_cons]
    simp [hc]
  obtain ⟨d, ds, hds⟩ := List.exists_cons_of_ne_nil
    (show (c :: cs).reverse ≠ [] by simp)
  have hdmem : d ∈ c :: cs := by
    rw [← List.mem_reverse, hds]
    exact List.mem_cons_self _ _
  have hd := plain_ne_hyphen d (h d hdmem)
  have h1 : ((c :: cs).reverse.dropWhile (fun x => x == '-')).reverse = c :: cs := by
    rw [hds, List.dropWhile_cons]
    simp only [hd, Bool.false_eq_true, if_false]
    rw [← hds, List.reverse_reverse]
  have h2 : ((c :: cs).reverse.takeWhile (fun x => x == '-')).reverse = [] := by
    rw [hds, List.takeWhile_cons]
    simp [hd]
  unfold applyRun
  rw [hdrop, htake, if_neg (List.cons_ne_nil c cs), h1, h2]
  simp

theorem replWordsGo_nil (f : List Char → List Char) (run : List Char) :
    replWordsGo f run [] = if run = [] then [] else applyRun f run.reverse := rfl

theorem replWordsGo_cons (f : List Char → List Char) (run : List Char)
    (c : Char) (cs : List Char) :
    replWordsGo f run (c :: cs) =
      if isWordChar c = true then replWordsGo f (c :: run) cs
      else (if run = [] then [] else applyRun f run.reverse) ++ c :: replWordsGo f [] cs := rfl

theorem replWordsGo_end (f : List Char → List Char) :
    ∀ (w acc : List Char), (∀ c ∈ w, isWordChar c = true) → acc ≠ [] →
      replWordsGo f acc w = applyRun f (acc.reverse ++ w) := by
  intro w
  induction w with
  | nil =>
    intro acc _ hacc
    rw [replWordsGo_nil, if_neg hacc]
    simp
  | cons c w2 ih =>
    intro acc hw hacc
    rw [replWordsGo_cons, if_pos (hw c (List.mem_cons_self _ _))]
    rw [ih (c :: acc) (fun x hx => hw x (List.mem_cons_of_mem _ hx)) (List.cons_ne_nil _ _)]
    have hre : (c :: acc).reverse ++ w2 = acc.reverse ++ (c :: w2) := by simp
    rw [hre]

theorem replWordsGo_break (f : List Char → List Char) :
    ∀ (w acc r : List Char), (∀ c ∈ w, isWordChar c = true) → acc ≠ [] →
      replWordsGo f acc (w ++ ' ' :: r) =
        applyRun f (acc.reverse ++ w) ++ ' ' :: replWordsGo f [] r := by
  intro w
  induction w with
  | nil =>
    intro acc r _ hacc
    show replWordsGo f acc (' ' :: r) = _
    rw [replWordsGo_cons, if_neg (by decide : ¬ isWordChar ' ' = true), if_neg hacc]
    simp
  | cons c w2 ih =>
    intro acc r hw hacc
    show replWordsGo f acc (c :: (w2 ++ ' ' :: r)) = _
    rw [replWordsGo_cons, if_pos (hw c (List.mem_cons_self _ _))]
    rw [ih (c :: acc) r (fun x hx => hw x (List.mem_cons_of_mem _ hx)) (List.cons_ne_nil _ _)]
    have hre : (c :: acc).reverse ++ w2 = acc.reverse ++ (c :: w2) := by simp
    rw [hre]

theorem replWords_start_break (f : List Char → List Char) (w r : List Char)
    (hw : ∀ c ∈ w, isWordChar c = true) (hne : w ≠ []) :
    replWordsGo f [] (w ++ ' ' :: r) = applyRun f w ++ ' ' :: replWordsGo f [] r := by
  obtain ⟨c, cs, rfl⟩ := List.exists_cons_of_ne_nil hne
  show replWordsGo f [] (c :: (cs ++ ' ' :: r)) = _
  rw [replWordsGo_cons, if_pos (hw c (List.mem_cons_self _ _))]
  rw [replWordsGo_break f cs [c] r (fun x hx => hw x (List.mem_cons_of_mem _ hx))
    (List.cons_ne_nil _ _)]
  rfl

theorem replWords_start_end (f : List Char → List Char) (w : List Char)
    (hw : ∀ c ∈ w, isWordChar c = true) (hne : w ≠ []) :
    replWordsGo f [] w = applyRun f w := by
  obtain ⟨c, cs, rfl⟩ := List.exists_cons_of_ne_nil hne
  rw [replWordsGo_cons, if_pos (hw c (List.mem_cons_self _ _))]
  rw [replWordsGo_end f cs [c] (fun x hx => hw x (List.mem_cons_of_mem _ hx))
    (List.cons_ne_nil _ _)]
  rfl

theorem substWord_operator_and (ts : List (List Char)) :
    substWord ts "and".toList = "and".toList := by
  unfold substWord
  rw [if_pos (by decide)]

theorem substWord_operator_not (ts : List (List Char)) :
    substWord ts "not".toList = "not".toList := by
  unfold substWord
  rw [if_pos (by decide)]

/-- Word substitution on the rendered expression `A and not A` for a plain
word tag `A`: both copies of `A` are substituted (identically), the logical
keywords pass through. -/
theorem replWords_A_and_not_A (ts : List (List Char)) (A : List Char)
    (hA : A ≠ []) (hplain : ∀ c ∈ A, isPlainTagChar c = true) :
    replWords (substWord ts) (A ++ " and not ".toList ++ A) =
      substWord ts A ++ " and not ".toList ++ substWord ts A := by
  have hword : ∀ c ∈ A, isWordChar c = true := fun c hc => isWordChar_plain c (hplain c hc)
  have e1 : A ++ " and not ".toList ++ A =
      A ++ ' ' :: ("and".toList ++ ' ' :: ("not".toList ++ ' ' :: A)) := by
    rw [List.append_assoc]
    rfl
  unfold replWords
  rw [e1]
  rw [replWords_start_break _ A _ hword hA]
  rw [replWords_start_break _ "and".toList _ (by decide) (by decide)]
  rw [replWords_start_break _ "not".toList _ (by decide) (by decide)]
  rw [replWords_start_end _ A hword hA]
  rw [applyRun_plain _ A hA hplain]
  rw [applyRun_plain _ "and".toList (by decide) (by decide)]
  rw [applyRun_plain _ "not".toList (by decide) (by decide)]
  rw [substWord_operator_and, substWord_operator_not]
  rw [List.append_assoc]
  rfl

theorem evalSimple_TT (k : Nat) :
    evaluateSimpleBooleanExpression (k + 1) ("true && !true".toList) = some false := by
  show parenPhase (k + 1) ("true&&!true".toList) = some false
  rw [parenPhase_no_paren _ _ (by decide)]
  have hn : iterLoop (fun x => x.contains '!') replaceNot (k + 1) ("true&&!true".toList) =
      some ("true&&false".toList) := by
    rw [iterLoop_step (fun x => x.contains '!') replaceNot k ("true&&!true".toList) (by decide)]
    rw [iterLoop_done (fun x => x.contains '!') replaceNot k
      (replaceNot ("true&&!true".toList)) (by decide)]
    decide
  have ha : iterLoop (fun x => containsSub "&&".toList x) replaceAnd (k + 1)
      ("true&&false".toList) = some ("false".toList) := by
    rw [iterLoop_step (fun x => containsSub "&&".toList x) replaceAnd k
      ("true&&false".toList) (by decide)]
    rw [iterLoop_done (fun x => containsSub "&&".toList x) replaceAnd k
      (replaceAnd ("true&&false".toList)) (by decide)]
    decide
  have ho : iterLoop (fun x => containsSub "||".toList x) replaceOr (k + 1)
      ("false".toList) = some ("false".toList) :=
    iterLoop_done _ _ _ _ (by decide)
  simp only [evalNoParens, hn, ha, ho]
  decide

theorem evalSimple_FF (k : Nat) :
    evaluateSimpleBooleanExpression (k + 1) ("false && !false".toList) = some false := by
  show parenPhase (k + 1) ("false&&!false".toList) = some false
  rw [parenPhase_no_paren _ _ (by decide)]
  have hn : iterLoop (fun x => x.contains '!') replaceNot (k + 1) ("false&&!false".toList) =
      some ("false&&true".toList) := by
    rw [iterLoop_step (fun x => x.contains '!') replaceNot k ("false&&!false".toList) (by decide)]
    rw [iterLoop_done (fun x => x.contains '!') replaceNot k
      (replaceNot ("false&&!false".toList)) (by decide)]
    decide
  have ha : iterLoop (fun x => containsSub "&&".toList x) replaceAnd (k + 1)
      ("false&&true".toList) = some ("false".toList) := by
    rw [iterLoop_step (fun x => containsSub "&&".toList x) replaceAnd k
      ("false&&true".toList) (by decide)]
    rw [iterLoop_done (fun x => containsSub "&&".toList x) replaceAnd k
      (replaceAnd ("false&&true".toList)) (by decide)]
    decide
  have ho : iterLoop (fun x => containsSub "||".toList x) replaceOr (k + 1)
      ("false".toList) = some ("false".toList) :=
    iterLoop_done _ _ _ _ (by decide)
  simp only [evalNoParens, hn, ha, ho]
  decide

/-- C8 (empty-expression part as claimed; the `A and not A` part amended):
the empty expression always evaluates to `true`; and for every tag `A` that
is a non-empty word of lower-case letters, digits or underscores and is not
one of the operator keywords `and`/`or`/`not`, the expression
`A and not A` evaluates to `false` on every entity tag set (with any
positive iteration budget).  For `A = "and"` the claim fails: see the
counterexample, where the evaluator does not return `false` at all. -/
theorem C8_empty_true_and_A_not_A (tags : List String) (A : String) (k : Nat)
    (hne : A.data ≠ [])
    (hplain : ∀ c ∈ A.data, isPlainTagChar c = true)
    (h1 : A ≠ "and") (h2 : A ≠ "or") (h3 : A ≠ "not") :
    (∀ f ts, evaluateTagExpression f ts "" = some true) ∧
    evaluateTagExpression (k + 1) tags (A ++ " and not " ++ A) = some false := by
  constructor
  · intro f ts
    unfold evaluateTagExpression
    rw [if_pos rfl]
  · have hAne : (A ++ " and not " ++ A) ≠ "" := by
      intro h
      apply hne
      have hd := congrArg String.data h
      rw [String.data_append, String.data_append] at hd
      simp at hd
    unfold evaluateTagExpression
    rw [if_neg hAne]
    have hmap : (A ++ " and not " ++ A).toList.map lowerChar =
        A.data ++ " and not ".toList ++ A.data := by
      show (A ++ " and not " ++ A).data.map lowerChar = _
      rw [String.data_append, String.data_append, List.map_append, List.map_append]
      rw [map_id_of_mem A.data lowerChar (fun c hc => lowerChar_plain c (hplain c hc))]
      rw [show (" and not " : String).data.map lowerChar = " and not ".toList from by decide]
    rw [hmap]
    rw [replWords_A_and_not_A _ A.data hne hplain]
    have c1 : A.data ≠ "and".toList := fun e => h1 (String.ext e)
    have c2 : A.data ≠ "or".toList := fun e => h2 (String.ext e)
    have c3 : A.data ≠ "not".toList := fun e => h3 (String.ext e)
    have hcond : ¬ ((A.data = "and".toList || A.data = "or".toList ||
        A.data = "not".toList) = true) := by
      simp only [Bool.or_eq_true, decide_eq_true_eq, not_or]
      exact ⟨⟨c1, c2⟩, c3⟩
    have hsub : substWord (tags.map (fun t => t.toList.map lowerChar)) A.data =
        if (tags.map (fun t => t.toList.map lowerChar)).contains A.data
        then "true".toList else "false".toList := by
      unfold substWord
      rw [if_neg hcond]
    rw [hsub]
    cases hm : (tags.map (fun t => t.toList.map lowerChar)).contains A.data with
    | true =>
      show evaluateSimpleBooleanExpression (k + 1) ("true && !true".toList) = some false
      exact evalSimple_TT k
    | false =>
      show evaluateSimpleBooleanExpression (k + 1) ("false && !false".toList) = some false
      exact evalSimple_FF k

/-- Witness for C8 with the plain tag `web`. -/
theorem C8_empty_true_and_A_not_A_witness :
    (evaluateTagExpression 7 ["x"] "" = some true) ∧
    evaluateTagExpression 11 ["web"] ("web" ++ " and not " ++ "web") = some false := by
  have h := C8_empty_true_and_A_not_A ["web"] "web" 10 (by decide) (by decide)
    (by decide) (by decide) (by decide)
  exact ⟨h.1 7 ["x"], h.2⟩

/-- C8 counterexample: for the tag literally named `and` the expression
`A and not A` does not evaluate to `false` — every token is treated as an
operator, the rewritten text `and&&!and` has no reducible `!` redex, and
the `!`-reduction loop never terminates (modelled as `none` at any budget;
shown here at budget 100). -/
theorem C8_A_not_A_counterexample :
    evaluateTagExpression 100 [] ("and" ++ " and not " ++ "and") ≠ some false := by
  decide

/-! ## QueryEngine: the per-entity filter decision of `GetBookmarks`
(`part_016` lines 451-664) -/

structure Bmk where
  title : String
  url : String
  tags : List String

/-- `strings.Join(tags, " ")`. -/
def joinSpace : List String → String
  | [] => ""
  | [x] => x
  | x :: xs => x ++ " " ++ joinSpace xs

/-- The searchable text of a bookmark: lower-cased title, URL and tags. -/
def searchableText (b : Bmk) : List Char :=
  (b.title ++ " " ++ b.url ++ " " ++ joinSpace b.tags).toList.map lowerChar

/-- `strings.Fields`: whitespace-separated words. -/
def fieldsGo (cur : List Char) : List Char → List (List Char)
  | [] => if cur = [] then [] else [cur.reverse]
  | c :: cs =>
    if isWs c then (if cur = [] then fieldsGo [] cs else cur.reverse :: fieldsGo [] cs)
    else fieldsGo (c :: cur) cs

def fieldsL (s : List Char) : List (List Char) :=
  fieldsGo [] s

/-- `strings.HasPrefix(word, "-") && len(word) > 1`. -/
def isExclWord : List Char → Bool
  | '-' :: _ :: _ => true
  | _ => false

/-- The keyword block of `GetBookmarks` (lines 585-631): split the query
into lower-case words; a `-`-prefixed word (length > 1) must be absent from
the searchable text, every other word must be present as a substring. -/
def keywordPass (keywords : String) (b : Bmk) : Bool :=
  if keywords = "" then true
  else
    let ws := fieldsL (keywords.toList.map lowerChar)
    if ws = [] then true
    else
      let excludeWords := (ws.filter (fun w => isExclWord w)).map (fun w => w.drop 1)
      let includeWords := ws.filter (fun w => ! isExclWord w)
      if excludeWords.any (fun w => containsSub w (searchableText b)) then false
      else if includeWords = [] then true
      else includeWords.all (fun w => containsSub w (searchableText b))

/-- The per-entity decision of the `GetBookmarks` scan loop (lines 523-634):
normalize the stored tags through the alias map, pick the tag-filter mode
by strict priority (advanced expression, else include set, else exclude
set), then apply the keyword filter.  `none` models the advanced-expression
evaluator not terminating.  (The handler normalizes whenever the alias map
loaded, which in non-error operation is always; `normalizeTags` is the
identity on an empty tag list, so the `len > 0` guard is immaterial.) -/
def keepEntity (f : Nat) (aliasMap : List (String × String)) (adv : String)
    (filterTags excludeTags : List String) (keywords : String) (b : Bmk) : Option Bool :=
  let nt := normalizeTags b.tags aliasMap
  let b2 : Bmk := ⟨b.title, b.url, nt⟩
  if adv ≠ "" then
    match evaluateTagExpression f nt adv with
    | none => none
    | some ok => if ok then some (keywordPass keywords b2) else some false
  else if filterTags ≠ [] then
    if filterTags.any (fun ft => nt.any (fun bt => bt = ft)) then some (keywordPass keywords b2)
    else some false
  else if excludeTags ≠ [] then
    if excludeTags.any (fun et => nt.any (fun bt => bt = et)) then some false
    else some (keywordPass keywords b2)
  else some (keywordPass keywords b2)

/-- Modelled on the spec's §4.5 description of the filter pipeline: advanced
expression alone decides tag filtering when present; else keep iff the
normalized tag set intersects the include set; else drop iff it intersects
the exclude set; keyword filtering applies afterward in every mode. -/
def specKeep (f : Nat) (aliasMap : List (String × String)) (adv : String)
    (filterTags excludeTags : List String) (keywords : String) (b : Bmk) : Option Bool :=
  let nt := normalizeTags b.tags aliasMap
  let b2 : Bmk := ⟨b.title, b.url, nt⟩
  if adv ≠ "" then
    (evaluateTagExpression f nt adv).map (fun r => r && keywordPass keywords b2)
  else if filterTags ≠ [] then
    some (decide (∃ t ∈ nt, t ∈ filterTags) && keywordPass keywords b2)
  else if excludeTags ≠ [] then
    some (! decide (∃ t ∈ nt, t ∈ excludeTags) && keywordPass keywords b2)
  else
    some (keywordPass keywords b2)

theorem inter_any_eq (nt incl : List String) :
    (incl.any (fun ft => nt.any (fun bt => bt = ft))) = decide (∃ t ∈ nt, t ∈ incl) := by
  rw [Bool.eq_iff_iff]
  simp only [List.any_eq_true, decide_eq_true_eq]
  constructor
  · rintro ⟨ft, hft, bt, hbt, he⟩
    exact ⟨bt, hbt, he ▸ hft⟩
  · rintro ⟨t, htn, hti⟩
    exact ⟨t, hti, t, htn, rfl⟩

/-- C4: the filter modes are applied with strict priority and the claimed
semantics.  When an advanced expression is present it alone decides tag
filtering — the include/exclude sets do not appear in that branch at all;
otherwise a non-empty include set keeps exactly the entities whose
normalized tag set intersects it (OR semantics); otherwise a non-empty
exclude set drops exactly the entities whose normalized tag set intersects
it; entity tags are normalized before every comparison, keyword filtering
applies afterward in every mode, and with no filter at all every entity
passes. -/
theorem C4_filter_priority_refines_spec (f : Nat) (aliasMap : List (String × String))
    (adv : String) (filterTags excludeTags : List String) (keywords : String) (b : Bmk) :
    keepEntity f aliasMap adv filterTags excludeTags keywords b =
      specKeep f aliasMap adv filterTags excludeTags keywords b ∧
    keepEntity f aliasMap "" [] [] "" b = some true := by
  constructor
  · unfold keepEntity specKeep
    by_cases ha : adv ≠ ""
    · rw [if_pos ha, if_pos ha]
      cases evaluateTagExpression f (normalizeTags b.tags aliasMap) adv with
      | none => rfl
      | some ok => cases ok <;> simp
    · rw [if_neg ha, if_neg ha]
      by_cases hi : filterTags ≠ []
      · rw [if_pos hi, if_pos hi, inter_any_eq]
        cases hd : decide (∃ t ∈ normalizeTags b.tags aliasMap, t ∈ filterTags) <;> simp
      · rw [if_neg hi, if_neg hi]
        by_cases he : excludeTags ≠ []
        · rw [if_pos he, if_pos he, inter_any_eq]
          cases hd : decide (∃ t ∈ normalizeTags b.tags aliasMap, t ∈ excludeTags) <;> simp
        · rw [if_neg he, if_neg he]
  · unfold keepEntity
    simp [keywordPass]

/-! ## Tag listing with alias collapsing (C6, `GetBookmarkTags`,
`part_016` lines 666-754) -/

/-- The merge loop of `GetBookmarkTags`: fold every stored tag through the
alias map and accumulate `merged[canon] += count`. -/
def mergeCounts (am : List (String × String)) (counts : List (String × Int)) :
    List (String × Int) :=
  counts.foldl
    (fun acc p => setC acc (canonOf am p.1) (countOf acc (canonOf am p.1) + p.2)) []

/-- `GetBookmarkTags`: merge by alias when the alias map is non-empty, then
format each entry as `"<tag>,<count>"`.  (The handler only reads — both
store accesses are `db.View` read transactions — so no entity and no stored
count is rewritten.) -/
def listTags (am : List (String × String)) (counts : List (String × Int)) : List String :=
  (if am = [] then counts else mergeCounts am counts).map
    (fun p => p.1 ++ "," ++ toString p.2)

/-- Modelled on the spec sentence: the reported count of a canonical tag is
the sum of the stored counts of all stored tags that collapse onto it. -/
def specAliasSum (am : List (String × String)) (counts : List (String × Int))
    (c : String) : Int :=
  ((counts.filter (fun p => canonOf am p.1 = c)).map (fun p => p.2)).sum

theorem canonOf_nil (t : String) : canonOf [] t = t := rfl

theorem setC_of_none (m : List (String × Int)) (k : String) (v : Int)
    (h : lookupC m k = none) : setC m k v = m ++ [(k, v)] := by
  induction m with
  | nil => rfl
  | cons p ps ih =>
    rw [lookupC_cons] at h
    by_cases hp : p.1 = k
    · rw [if_pos hp] at h
      simp at h
    · rw [if_neg hp] at h
      rw [setC_cons, if_neg hp, ih h, List.cons_append]

theorem lookupC_append_nf (m : List (String × Int)) (k q : String) (v : Int)
    (hq : lookupC m q = none) (hk : q ≠ k) : lookupC (m ++ [(k, v)]) q = none := by
  induction m with
  | nil =>
    rw [List.nil_append, lookupC_cons, if_neg (fun e => hk e.symm)]
    rfl
  | cons p ps ih =>
    rw [lookupC_cons] at hq
    by_cases hp : p.1 = q
    · rw [if_pos hp] at hq
      simp at hq
    · rw [if_neg hp] at hq
      rw [List.cons_append, lookupC_cons, if_neg hp]
      exact ih hq

theorem countOf_bump (m : List (String × Int)) (k : String) (n : Int) (c : String) :
    countOf (setC m k (countOf m k + n)) c =
      countOf m c + (if k = c then n else 0) := by
  by_cases hc : k = c
  · rw [if_pos hc, ← hc]
    unfold countOf
    rw [lookupC_setC_self]
    rfl
  · rw [if_neg hc]
    unfold countOf
    rw [lookupC_setC_ne m k c _ (fun e => hc e.symm)]
    ring

theorem mergeCounts_fold (am : List (String × String)) :
    ∀ (l acc : List (String × Int)) (c : String),
      countOf (l.foldl
        (fun acc p => setC acc (canonOf am p.1) (countOf acc (canonOf am p.1) + p.2)) acc) c =
      countOf acc c + specAliasSum am l c := by
  intro l
  induction l with
  | nil =>
    intro acc c
    simp [specAliasSum]
  | cons p ps ih =>
    intro acc c
    rw [List.foldl_cons, ih, countOf_bump]
    unfold specAliasSum
    rw [List.filter_cons]
    by_cases hp : canonOf am p.1 = c
    · rw [if_pos hp, if_pos (show decide (canonOf am p.1 = c) = true by simp [hp])]
      simp only [List.map_cons, List.sum_cons]
      ring
    · rw [if_neg hp, if_neg (show ¬ decide (canonOf am p.1 = c) = true by simp [hp])]
      ring

theorem mergeCounts_nil_fold :
    ∀ (l acc : List (String × Int)), keysNodup l →
      (∀ p ∈ l, lookupC acc p.1 = none) →
      l.foldl
        (fun acc p => setC acc (canonOf [] p.1) (countOf acc (canonOf [] p.1) + p.2)) acc =
      acc ++ l := by
  intro l
  induction l with
  | nil =>
    intro acc _ _
    simp
  | cons p ps ih =>
    intro acc hnd hf
    unfold keysNodup at hnd
    rw [List.map_cons, List.nodup_cons] at hnd
    rw [List.foldl_cons, canonOf_nil]
    have h0 : countOf acc p.1 = 0 := by
      unfold countOf
      rw [hf p (List.mem_cons_self _ _)]
      rfl
    rw [h0, zero_add, setC_of_none acc p.1 p.2 (hf p (List.mem_cons_self _ _))]
    have hstep := ih (acc ++ [(p.1, p.2)]) hnd.2 (fun q hq => by
      apply lookupC_append_nf
      · exact hf q (List.mem_cons_of_mem _ hq)
      · intro e
        exact hnd.1 (e ▸ List.mem_map_of_mem Prod.fst hq))
    rw [hstep]
    simp

/-- C6: `listTags` reports the persisted counts folded through the current
alias map — for every canonical tag the reported count is the sum of the
stored counts of all stored tags collapsing onto it — formatted as one
`"<tag>,<count>"` string per tag; the two concrete conjuncts show the same
stored counts reported differently under a changed alias map, with no
stored state touched (the whole handler runs in read-only transactions). -/
theorem C6_listTags_alias_collapsed (am : List (String × String))
    (counts : List (String × Int)) (h : keysNodup counts) :
    (∀ c, countOf (mergeCounts am counts) c = specAliasSum am counts c) ∧
    listTags am counts = (mergeCounts am counts).map (fun p => p.1 ++ "," ++ toString p.2) ∧
    listTags [("a.i.", "ai")] [("ai", 1), ("a.i.", 1)] = ["ai,2"] ∧
    listTags [] [("ai", 1), ("a.i.", 1)] = ["ai,1", "a.i.,1"] := by
  refine ⟨?_, ?_, by decide, by decide⟩
  · intro c
    unfold mergeCounts
    rw [mergeCounts_fold am counts [] c]
    have h0 : countOf [] c = 0 := rfl
    rw [h0, zero_add]
  · unfold listTags
    by_cases ha : am = []
    · rw [if_pos ha, ha]
      have hm : mergeCounts [] counts = counts := by
        unfold mergeCounts
        rw [mergeCounts_nil_fold counts [] h (fun p _ => rfl)]
        rfl
      rw [hm]
    · rw [if_neg ha]

/-- Witness for C6 at a concrete stored map. -/
theorem C6_listTags_alias_collapsed_witness :
    (countOf (mergeCounts [("a.i.", "ai")] [("ai", 1), ("a.i.", 1)]) "ai" =
      specAliasSum [("a.i.", "ai")] [("ai", 1), ("a.i.", 1)] "ai") ∧
    listTags [("a.i.", "ai")] [("ai", 1), ("a.i.", 1)] =
      (mergeCounts [("a.i.", "ai")] [("ai", 1), ("a.i.", 1)]).map
        (fun p => p.1 ++ "," ++ toString p.2) := by
  have h := C6_listTags_alias_collapsed [("a.i.", "ai")] [("ai", 1), ("a.i.", 1)]
    (by unfold keysNodup; decide)
  exact ⟨h.1 "ai", h.2.1⟩

/-! ## Error handling of the entity-write / index-delta pair (C9)

`NewBookmark` (lines 422-448) and `DeleteBookmark` (lines 815-841) run the
entity write and `updateTagCounts` as two separate store transactions; the
outcome of each transaction is injected as a boolean.  After a successful
entity write, a failing delta is only logged (`fmt.Printf` warning) and the
handler still answers with the success response. -/

structure ReqOutcome where
  state : EngineState
  success : Bool

/-- `NewBookmark` after validation: write the entity (fail ⇒ 500, nothing
persisted), then apply the create delta; a delta failure leaves the counts
stale but the response is still 201/success. -/
def newBookmarkOp (aliases : List (String × String)) (s : EngineState)
    (tags : List String) (writeFails deltaFails : Bool) : ReqOutcome :=
  let tags2 := normalizeTags tags aliases
  if writeFails then ⟨s, false⟩
  else
    let s1 : EngineState := ⟨s.nextId + 1, s.entities ++ [(s.nextId, tags2)], s.counts⟩
    if deltaFails then ⟨s1, true⟩
    else ⟨⟨s1.nextId, s1.entities, updateTagCounts s.counts [] tags2⟩, true⟩

/-- `DeleteBookmark`: missing id ⇒ 404 with no index mutation; otherwise
delete the entity, then apply the delete delta; a delta failure is logged
and the response is still success. -/
def deleteBookmarkOp (s : EngineState) (id : Nat) (deltaFails : Bool) : ReqOutcome :=
  match s.entities.find? (fun e2 => e2.1 = id) with
  | none => ⟨s, false⟩
  | some e =>
    let s1 : EngineState := ⟨s.nextId, s.entities.filter (fun e2 => e2.1 ≠ id), s.counts⟩
    if deltaFails then ⟨s1, true⟩
    else ⟨⟨s1.nextId, s1.entities, updateTagCounts s.counts e.2 []⟩, true⟩

/-- C9: when the entity write succeeds and the tag-count delta fails, the
request still reports success, the entity mutation (creation / deletion)
stays in effect, and only the derived counts are left untouched — the delta
failure is never surfaced to the caller. -/
theorem C9_delta_failure_swallowed (aliases : List (String × String)) (s : EngineState)
    (tags : List String) (df : Bool) (id : Nat) :
    ((newBookmarkOp aliases s tags false df).success = true ∧
     (s.nextId, normalizeTags tags aliases) ∈ (newBookmarkOp aliases s tags false df).state.entities ∧
     (df = true → (newBookmarkOp aliases s tags false df).state.counts = s.counts)) ∧
    (∀ e, s.entities.find? (fun e2 => e2.1 = id) = some e →
      (deleteBookmarkOp s id df).success = true ∧
      (deleteBookmarkOp s id df).state.entities = s.entities.filter (fun e2 => e2.1 ≠ id) ∧
      (df = true → (deleteBookmarkOp s id df).state.counts = s.counts)) := by
  constructor
  · unfold newBookmarkOp
    cases df with
    | false =>
      refine ⟨rfl, ?_, fun h => by simp at h⟩
      simp
    | true =>
      refine ⟨rfl, ?_, fun _ => rfl⟩
      simp
  · intro e he
    unfold deleteBookmarkOp
    rw [he]
    cases df with
    | false => exact ⟨rfl, rfl, fun h => by simp at h⟩
    | true => exact ⟨rfl, rfl, fun _ => rfl⟩

/-- Witness for C9: a one-entity store, delta failing on create and delete. -/
theorem C9_delta_failure_swallowed_witness :
    ((newBookmarkOp [] ⟨1, [(0, ["x", "y"])], [("x", 1), ("y", 1)]⟩ ["z"] false true).success = true ∧
     (1, normalizeTags ["z"] []) ∈
       (newBookmarkOp [] ⟨1, [(0, ["x", "y"])], [("x", 1), ("y", 1)]⟩ ["z"] false true).state.entities ∧
     (true = true →
       (newBookmarkOp [] ⟨1, [(0, ["x", "y"])], [("x", 1), ("y", 1)]⟩ ["z"] false true).state.counts =
         [("x", 1), ("y", 1)])) ∧
    ((deleteBookmarkOp ⟨1, [(0, ["x", "y"])], [("x", 1), ("y", 1)]⟩ 0 true).success = true ∧
     (deleteBookmarkOp ⟨1, [(0, ["x", "y"])], [("x", 1), ("y", 1)]⟩ 0 true).state.entities =
       ([(0, ["x", "y"])] : List (Nat × List String)).filter (fun e2 => e2.1 ≠ 0) ∧
     (true = true →
       (deleteBookmarkOp ⟨1, [(0, ["x", "y"])], [("x", 1), ("y", 1)]⟩ 0 true).state.counts =
         [("x", 1), ("y", 1)])) := by
  have h := C9_delta_failure_swallowed [] ⟨1, [(0, ["x", "y"])], [("x", 1), ("y", 1)]⟩
    ["z"] true 0
  exact ⟨h.1, h.2 (0, ["x", "y"]) (by decide)⟩

end Mon
